import Mathlib

/-!
Verification of the DeterministicYAML repository core.

The parser is embedded from src/lib/restricted_yaml_parser.py
(class RestrictedYAMLParser).  Lines are modelled as lists of
characters; the parser state (self.lines, self.pos) is passed
explicitly, and the mutual recursion of the Python methods is made
total with an explicit fuel argument (a later theorem shows a fuel of
3 * lines.length + 3 always suffices, so fuel exhaustion never occurs
at the top entry point).

Python specifics reproduced here: str.lstrip / str.strip on the ASCII
whitespace characters (space, tab, carriage return, vertical tab, form
feed; a newline never occurs inside a split line), dict assignment
that overwrites the value of an existing key in place, and the
truthiness conventions used by the source.
-/

def isPySpace (c : Char) : Bool :=
  c.toNat = 32 || c.toNat = 9 || c.toNat = 13 || c.toNat = 11 || c.toNat = 12

def isIdentChar (c : Char) : Bool :=
  (65 ≤ c.toNat && c.toNat ≤ 90) || (97 ≤ c.toNat && c.toNat ≤ 122)
    || (48 ≤ c.toNat && c.toNat ≤ 57) || c.toNat = 95

def isDigitChar (c : Char) : Bool :=
  48 ≤ c.toNat && c.toNat ≤ 57

/-- Python str.lstrip() on a physical line (no newline inside). -/
def lstripL (l : List Char) : List Char := l.dropWhile isPySpace

/-- Python str.rstrip() on a physical line. -/
def rstripL (l : List Char) : List Char := (l.reverse.dropWhile isPySpace).reverse

/-- Python str.strip() on a physical line. -/
def stripL (l : List Char) : List Char := lstripL (rstripL l)

/-- Leading-space count of a line: len(line) - len(line.lstrip()). -/
def lineIndent (l : List Char) : Nat := l.length - (lstripL l).length

/-- Indent level of a line: leading-space count integer-divided by 2,
exactly as the source computes current_indent_level. -/
def lineLevel (l : List Char) : Nat := lineIndent l / 2

/-- The value trees produced by the parser: Python None, bool, int,
str, dict (as an ordered entry list) and list. -/
inductive Value where
  | vnull : Value
  | vbool (b : Bool) : Value
  | vint (n : Int) : Value
  | vstr (s : String) : Value
  | vmap (entries : List (String × Value)) : Value
  | vseq (items : List Value) : Value

/-- NUMBER_PATTERN of the source: full match of -?[0-9]+. -/
def digitsNE (l : List Char) : Bool := !l.isEmpty && l.all isDigitChar

def numTokB (l : List Char) : Bool :=
  match l with
  | '-' :: r => digitsNE r
  | _ => digitsNE l

/-- IDENT_PATTERN of the source: full match of [A-Za-z0-9_]+. -/
def identTokB (l : List Char) : Bool := !l.isEmpty && l.all isIdentChar

/-- Value of a digit string, as Python int() computes it. -/
def digitsToNat (l : List Char) : Nat := l.foldl (fun a c => a * 10 + (c.toNat - 48)) 0

def pyIntOf (l : List Char) : Int :=
  match l with
  | '-' :: r => -(digitsToNat r : Int)
  | _ => (digitsToNat l : Int)

/-- Escape-sequence loop of RestrictedYAMLParser.parse_quoted_string:
recognised escapes are n t r backslash quote; an unrecognised
backslash passes the backslash through and re-examines the next
character; a trailing lone backslash is kept. -/
def unescape : List Char → List Char
  | [] => []
  | '\\' :: c :: rest =>
    if c = 'n' then '\n' :: unescape rest
    else if c = 't' then '\t' :: unescape rest
    else if c = 'r' then '\r' :: unescape rest
    else if c = '\\' then '\\' :: unescape rest
    else if c = '"' then '"' :: unescape rest
    else '\\' :: unescape (c :: rest)
  | c :: rest => c :: unescape rest

/-- Content of a quoted token, Python s[1:-1]. -/
def dropQuotes (l : List Char) : List Char := (l.drop 1).dropLast

/-- RestrictedYAMLParser.parse_scalar_string.  Classification order is
as in the source: empty, null, booleans, NUMBER_PATTERN, quoted,
IDENT_PATTERN; the identifier branch and the final fallback both
return the string itself. -/
def parseScalarString (l : List Char) : Value :=
  let s := stripL l
  if s.isEmpty then Value.vnull
  else if s = "null".data then Value.vnull
  else if s = "true".data then Value.vbool true
  else if s = "false".data then Value.vbool false
  else if numTokB s then Value.vint (pyIntOf s)
  else if s.head? == some '"' && s.getLast? == some '"' then
    Value.vstr ⟨unescape (dropQuotes s)⟩
  else Value.vstr ⟨s⟩

/-- Match of re.match(r'^[A-Za-z0-9_]+:\s*', s): a nonempty identifier
run immediately followed by a colon (the \s* tail is unconstrained). -/
def identColonB (s : List Char) : Bool :=
  let k := s.takeWhile isIdentChar
  !k.isEmpty && (s.drop k.length).head? == some ':'

/-- Groups of re.match(r'^([A-Za-z0-9_]+):\s*(.*)$', s); the second
component is everything after the colon (the caller strips it, which
makes the greedy \s* irrelevant). -/
def pairFields (s : List Char) : Option (List Char × List Char) :=
  let k := s.takeWhile isIdentChar
  if !k.isEmpty && (s.drop k.length).head? == some ':' then
    some (k, s.drop (k.length + 1))
  else none

/-- RestrictedYAMLParser.is_scalar. -/
def isScalarB (l : List Char) : Bool :=
  let s := stripL l
  if s.isEmpty then false
  else if s.head? == some '"' && s.getLast? == some '"' then true
  else if (let k := s.takeWhile isIdentChar
           !k.isEmpty && (s.drop k.length).head? == some ':'
             && (s.drop (k.length + 1)).all isPySpace) then false
  else if ['-', ' '].isPrefixOf s then false
  else true

/-- Python dict assignment result[key] = value on an ordered entry
list: overwrite in place if the key exists, append otherwise. -/
def pyDictInsert (d : List (String × Value)) (k : String) (v : Value) :
    List (String × Value) :=
  if d.any (fun p => p.1 == k) then
    d.map (fun p => bif p.1 == k then (k, v) else p)
  else d ++ [(k, v)]

/-- Skip loop over empty lines, iterating over the line list from the
current position (after the constructor filter the only blank lines
left in self.lines are the exactly-empty ones). -/
def skipBlankAux : List (List Char) → Nat → Nat
  | [], pos => pos
  | l :: r, pos => if (stripL l).isEmpty then skipBlankAux r (pos + 1) else pos

def skipBlank (lines : List (List Char)) (pos : Nat) : Nat :=
  skipBlankAux (lines.drop pos) pos

mutual

/-- RestrictedYAMLParser.parse_element (the scalar branch inlines
parse_scalar, whose position test already holds here). -/
def parseElement (lines : List (List Char)) (fuel : Nat) (indent pos : Nat) :
    Option (Value × Nat) :=
  match fuel with
  | 0 => none
  | fuel + 1 =>
    if pos < lines.length then
      let line := lines.getD pos []
      let stripped := lstripL line
      if lineLevel line ≠ indent then some (Value.vnull, pos)
      else if identColonB stripped then
        match parseMapping lines fuel indent pos [] with
        | none => none
        | some (m, p) => some (Value.vmap m, p)
      else if ['-', ' '].isPrefixOf stripped then
        match parseList lines fuel indent pos [] with
        | none => none
        | some (l, p) => some (Value.vseq l, p)
      else some (parseScalarString stripped, pos + 1)
    else some (Value.vnull, pos)
termination_by structural fuel

/-- RestrictedYAMLParser.parse_mapping, with the while loop unrolled
into recursion on the accumulator. -/
def parseMapping (lines : List (List Char)) (fuel : Nat) (indent pos : Nat)
    (acc : List (String × Value)) : Option (List (String × Value) × Nat) :=
  match fuel with
  | 0 => none
  | fuel + 1 =>
    if pos < lines.length then
      let line := lines.getD pos []
      let lvl := lineLevel line
      if lvl < indent then some (acc, pos)
      else if lvl ≠ indent then parseMapping lines fuel indent (pos + 1) acc
      else
        match parsePair lines fuel indent pos with
        | none => none
        | some (none, p) => some (acc, p)
        | some (some (k, v), p) =>
          parseMapping lines fuel indent p (pyDictInsert acc k v)
    else some (acc, pos)
termination_by structural fuel

/-- RestrictedYAMLParser.parse_pair.  The source saves the position
after consuming the key line, skips blank lines, and either recurses
at indent + 1, restores the saved position (next level at or below the
current one, or no further line), or, when the next level exceeds
indent + 1, falls through to the final return without restoring. -/
def parsePair (lines : List (List Char)) (fuel : Nat) (indent pos : Nat) :
    Option (Option (String × Value) × Nat) :=
  match fuel with
  | 0 => none
  | fuel + 1 =>
    if pos < lines.length then
      let line := lines.getD pos []
      let stripped := lstripL line
      if lineLevel line ≠ indent then some (none, pos)
      else
        match pairFields stripped with
        | none => some (none, pos)
        | some (k, rest) =>
          let valueStr := stripL rest
          let pos1 := pos + 1
          if !valueStr.isEmpty && isScalarB valueStr then
            some (some (⟨k⟩, parseScalarString valueStr), pos1)
          else if pos1 < lines.length then
            let pos2 := skipBlank lines pos1
            if pos2 < lines.length then
              let nlvl := lineLevel (lines.getD pos2 [])
              if nlvl = indent + 1 then
                match parseElement lines fuel (indent + 1) pos2 with
                | none => none
                | some (v, p) => some (some (⟨k⟩, v), p)
              else if nlvl ≤ indent then some (some (⟨k⟩, Value.vnull), pos1)
              else some (some (⟨k⟩, Value.vnull), pos2)
            else some (some (⟨k⟩, Value.vnull), pos1)
          else some (some (⟨k⟩, Value.vnull), pos1)
    else some (none, pos)
termination_by structural fuel

/-- RestrictedYAMLParser.parse_list, with the while loop unrolled into
recursion on the accumulator. -/
def parseList (lines : List (List Char)) (fuel : Nat) (indent pos : Nat)
    (acc : List Value) : Option (List Value × Nat) :=
  match fuel with
  | 0 => none
  | fuel + 1 =>
    if pos < lines.length then
      let line := lines.getD pos []
      let stripped := lstripL line
      let lvl := lineLevel line
      if lvl < indent then some (acc, pos)
      else if lvl ≠ indent then parseList lines fuel indent (pos + 1) acc
      else if ['-', ' '].isPrefixOf stripped then
        let valueStr := lstripL (stripped.drop 2)
        let pos1 := pos + 1
        if !valueStr.isEmpty && isScalarB valueStr then
          parseList lines fuel indent pos1 (acc ++ [parseScalarString valueStr])
        else if pos1 < lines.length then
          let nlvl := lineLevel (lines.getD pos1 [])
          if nlvl = indent + 1 then
            match parseElement lines fuel (indent + 1) pos1 with
            | none => none
            | some (v, p) => parseList lines fuel indent p (acc ++ [v])
          else if !valueStr.isEmpty then
            parseList lines fuel indent pos1 (acc ++ [parseScalarString valueStr])
          else
            parseList lines fuel indent pos1 (acc ++ [Value.vnull])
        else if !valueStr.isEmpty then
          parseList lines fuel indent pos1 (acc ++ [parseScalarString valueStr])
        else
          parseList lines fuel indent pos1 (acc ++ [Value.vnull])
      else some (acc, pos)
    else some (acc, pos)
termination_by structural fuel

end

/-- RestrictedYAMLParser.parse_value (defined in the source but not
reached from parse; embedded for completeness). -/
def parseValue (lines : List (List Char)) (fuel : Nat) (indent pos : Nat) :
    Option (Value × Nat) :=
  match fuel with
  | 0 => none
  | fuel + 1 =>
    let pos := skipBlank lines pos
    if pos < lines.length then
      let lvl := lineLevel (lines.getD pos [])
      if lvl = indent then parseElement lines fuel indent pos
      else if lvl < indent then some (Value.vnull, pos)
      else parseValue lines fuel indent (pos + 1)
    else some (Value.vnull, pos)

/-- Line list built by the constructor: text.split('\n') keeping lines
that are non-blank or exactly empty. -/
def pyLinesOf (text : String) : List (List Char) :=
  (text.data.splitOn '\n').filter (fun l => !(stripL l).isEmpty || l.isEmpty)

/-- Fuel that the totality theorem proves sufficient for any input. -/
def parseFuel (lines : List (List Char)) : Nat := 3 * lines.length + 3

/-- parse_restricted_yaml: RestrictedYAMLParser(text).parse(). -/
def parseRestrictedYaml (text : String) : Option Value :=
  let lines := pyLinesOf text
  if lines.isEmpty then some Value.vnull
  else
    let pos := skipBlank lines 0
    if pos < lines.length then
      match parseElement lines (parseFuel lines) 0 pos with
      | none => none
      | some (v, _) => some v
    else some Value.vnull

/-!
Canonical serializer.  DeterministicYAML.to_deterministic_yaml is
imported by src/dyaml/core/serializer.py and src/lib tests from a
module that is not under src, so it is modelled from the spec here.
-/

/-- Indentation prefix: 2 spaces per nesting level. -/
def indentL (d : Nat) : List Char := List.replicate (2 * d) ' '

/-- Escapes re-applied on serialization for backslash, double quote,
newline, tab and carriage return. -/
def escChar (c : Char) : List Char :=
  if c = '\\' then ['\\', '\\']
  else if c = '"' then ['\\', '"']
  else if c = '\n' then ['\\', 'n']
  else if c = '\t' then ['\\', 't']
  else if c = '\r' then ['\\', 'r']
  else [c]

def escapeL (l : List Char) : List Char := l.flatMap escChar

/-- Decimal digit character. -/
def digitChar (n : Nat) : Char :=
  if n = 0 then '0' else if n = 1 then '1' else if n = 2 then '2'
  else if n = 3 then '3' else if n = 4 then '4' else if n = 5 then '5'
  else if n = 6 then '6' else if n = 7 then '7' else if n = 8 then '8' else '9'

/-- Decimal digits of a natural number, with a structural fuel bound
(n itself bounds the digit count, so the fuel never runs out). -/
def natDigitsF : Nat → Nat → List Char
  | 0, _ => []
  | f + 1, n =>
    if n < 10 then [digitChar n]
    else natDigitsF f (n / 10) ++ [digitChar (n % 10)]

def natDigits (n : Nat) : List Char := natDigitsF (n + 1) n

/-- Decimal form of an integer with optional leading minus. -/
def intDigits (n : Int) : List Char :=
  if n < 0 then '-' :: natDigits n.natAbs else natDigits n.toNat

/-- Modelled from the spec: a string is emitted bare only when it
fully matches the identifier pattern and its bare form would not be
reclassified by the scalar model (the spec requires the
minimal-but-unambiguous representation, so identifier-shaped strings
that collide with null, true, false or the integer pattern are
quoted); every other string is quoted with escapes re-applied. -/
def bareOK (l : List Char) : Bool :=
  identTokB l && !numTokB l
    && !(l == "null".data) && !(l == "true".data) && !(l == "false".data)

def isScalarValue : Value → Bool
  | .vmap _ => false
  | .vseq _ => false
  | _ => true

/-- Modelled from the spec: textual encoding of an atomic value
(null, booleans and integers bare; strings per bareOK). -/
def encScalar : Value → List Char
  | .vnull => "null".data
  | .vbool true => "true".data
  | .vbool false => "false".data
  | .vint n => intDigits n
  | .vstr s => if bareOK s.data then s.data else '"' :: (escapeL s.data ++ ['"'])
  | _ => []

/-- Modelled from the spec: the reserved annotation key is promoted
first, all remaining keys follow in lexicographic code-point order
(Python sorted is stable; insertion sort is stable too). -/
def orderKeys (entries : List (String × Value)) : List (String × Value) :=
  entries.filter (fun p => p.1 == "$human$")
    ++ List.insertionSort (fun a b => a.1.data ≤ b.1.data)
         (entries.filter (fun p => !(p.1 == "$human$")))

mutual

/-- Modelled from the spec: key ordering applied at every mapping
level of the tree (the emission stage below then emits entries in
stored order, so the composition emits the reserved key first and the
rest key-sorted at each level). -/
def canonValue : Value → Value
  | .vmap entries => Value.vmap (orderKeys (canonEntries entries))
  | .vseq items => Value.vseq (canonItems items)
  | v => v

def canonEntries : List (String × Value) → List (String × Value)
  | [] => []
  | (k, v) :: rest => (k, canonValue v) :: canonEntries rest

def canonItems : List Value → List Value
  | [] => []
  | v :: rest => canonValue v :: canonItems rest

end

mutual

/-- Modelled from the spec: emitted lines of a value at a nesting
depth, entries in stored order (ordering is applied by canonValue).
Scalar values are inline after the key, nested values start on the
following line at depth + 1.  Sequence items keep their order; a
nested item is introduced by a dash marker line, matching the grammar
comment of the parser (list_item is INDENT "-" SP then the value at
indent + 1).  The convention chosen for the open question of empty
containers: they emit no lines. -/
def serLines : Value → Nat → List (List Char)
  | .vmap entries, d => serMapLines entries d
  | .vseq items, d => serSeqLines items d
  | v, d => [indentL d ++ encScalar v]

def serMapLines : List (String × Value) → Nat → List (List Char)
  | [], _ => []
  | (k, v) :: rest, d =>
    (if isScalarValue v then [indentL d ++ k.data ++ (':' :: ' ' :: encScalar v)]
     else (indentL d ++ k.data ++ [':']) :: serLines v (d + 1)) ++ serMapLines rest d

def serSeqLines : List Value → Nat → List (List Char)
  | [], _ => []
  | v :: rest, d =>
    (if isScalarValue v then [indentL d ++ ('-' :: ' ' :: encScalar v)]
     else (indentL d ++ ['-', ' ']) :: serLines v (d + 1)) ++ serSeqLines rest d

end

/-- Lines of one mapping pair (head block of serMapLines). -/
def pairLines (k : String) (v : Value) (d : Nat) : List (List Char) :=
  if isScalarValue v then [indentL d ++ k.data ++ (':' :: ' ' :: encScalar v)]
  else (indentL d ++ k.data ++ [':']) :: serLines v (d + 1)

/-- Lines of one sequence item (head block of serSeqLines). -/
def itemLines (v : Value) (d : Nat) : List (List Char) :=
  if isScalarValue v then [indentL d ++ ('-' :: ' ' :: encScalar v)]
  else (indentL d ++ ['-', ' ']) :: serLines v (d + 1)

/-- The block of emitted lines sits in the line list at the given
position. -/
def linesAt (lines : List (List Char)) (pos : Nat) (block : List (List Char)) : Prop :=
  pos + block.length ≤ lines.length
    ∧ ∀ i, i < block.length → lines.getD (pos + i) [] = block.getD i []

/-- Condition at the position just after a block that makes every
parsing loop at the given level stop there: end of input, a strictly
shallower line, or a line at the same level that neither starts a pair
nor a list item. -/
def hardStop (lines : List (List Char)) (p d : Nat) : Prop :=
  lines.length ≤ p
    ∨ lineLevel (lines.getD p []) < d
    ∨ (lineLevel (lines.getD p []) = d
        ∧ identColonB (lstripL (lines.getD p [])) = false
        ∧ ['-', ' '].isPrefixOf (lstripL (lines.getD p [])) = false)

/-- Modelled from the spec: serialize, every emitted line ends with a
single newline. -/
def toDeterministicYaml (v : Value) : String :=
  ⟨(serLines (canonValue v) 0).flatMap (fun l => l ++ ['\n'])⟩

/-- Strictly ascending key list in code-point order. -/
def strictKeys : List String → Bool
  | [] => true
  | [_] => true
  | a :: b :: r => decide (a.data < b.data) && strictKeys (b :: r)

mutual

/-- Value trees on which the serializer and the parser are mutually
inverse: every mapping key matches the identifier pattern, keys are
strictly ascending (hence pairwise distinct and already in canonical
order, with no reserved key, which the identifier pattern excludes),
and mappings and sequences are non-empty. -/
def wfCanon : Value → Bool
  | .vmap entries =>
      !entries.isEmpty
        && (entries.map Prod.fst).all (fun k => identTokB k.data)
        && strictKeys (entries.map Prod.fst)
        && wfEntries entries
  | .vseq items => !items.isEmpty && wfItems items
  | _ => true

def wfEntries : List (String × Value) → Bool
  | [] => true
  | (_, v) :: rest => wfCanon v && wfEntries rest

def wfItems : List Value → Bool
  | [] => true
  | v :: rest => wfCanon v && wfItems rest

end

/-!
Validator.  validate_string / validate_file of dyaml.core.validator
are imported by src/dyaml/cli/validate.py and src/dyaml/tests but the
module is not under src, so the validator is modelled from the spec:
a line-by-line scan reporting tab characters, comment markers outside
quotes, flow-style markers outside quotes, anchors/tags/document
markers, and indentation that is not a multiple of 2, each as an
error finding carrying a 1-based line number; trailing whitespace is
reported as a warning (the strict-mode stylistic set is an
implementation choice per the spec); the aggregate is valid iff no
error-severity finding exists, so warnings never flip validity. -/

inductive Severity where
  | error : Severity
  | warning : Severity
deriving DecidableEq

structure Finding where
  line : Nat
  message : String
  severity : Severity

/-- Characters of a line outside double-quoted regions (a simple
quote-toggle scan; the modelled checks only need it on lines without
quoted strings). -/
def outsideQuotes : Bool → List Char → List Char
  | _, [] => []
  | inQ, c :: rest =>
    if c = '"' then outsideQuotes (!inQ) rest
    else if inQ then outsideQuotes inQ rest
    else c :: outsideQuotes inQ rest

def hasTrailingWs (l : List Char) : Bool :=
  match l.getLast? with
  | some c => isPySpace c
  | none => false

/-- Modelled from the spec: findings for one physical line. -/
def validateLine (idx : Nat) (l : List Char) : List Finding :=
  let outside := outsideQuotes false l
  (if l.contains '\t' then
     [⟨idx, "tab character in indentation or content", Severity.error⟩] else [])
  ++ (if outside.contains '#' then
     [⟨idx, "comment marker is forbidden", Severity.error⟩] else [])
  ++ (if outside.contains '{' || outside.contains '[' then
     [⟨idx, "flow style collection is forbidden", Severity.error⟩] else [])
  ++ (if outside.contains '&' || outside.contains '*' || outside.contains '!'
        || ['-', '-', '-'].isPrefixOf l || ['.', '.', '.'].isPrefixOf l then
     [⟨idx, "anchor, tag or document marker is forbidden", Severity.error⟩] else [])
  ++ (if lineIndent l % 2 ≠ 0 then
     [⟨idx, "indentation is not a multiple of 2", Severity.error⟩] else [])
  ++ (if hasTrailingWs l then
     [⟨idx, "trailing whitespace", Severity.warning⟩] else [])

structure ValidationResult where
  valid : Bool
  errors : List Finding
  warnings : List Finding

/-- Modelled from the spec: validate_string scans the whole text and
aggregates findings; valid iff zero error-severity findings. -/
def validateString (text : String) : ValidationResult :=
  let findings := (text.data.splitOn '\n').enum.flatMap
    (fun p => validateLine (p.1 + 1) p.2)
  let errs := findings.filter (fun f => f.severity == Severity.error)
  let warns := findings.filter (fun f => f.severity == Severity.warning)
  ⟨errs.isEmpty, errs, warns⟩

/-!
Annotation merge layer, embedded from src/dyaml/core/converter.py.
The CommentInfo record itself lives in dyaml.core.parser which is not
under src; it is modelled from the spec record
(key_path, associated_key, text, kind).
-/

structure CommentInfo where
  key_path : List String
  associated_key : Option String
  text : String
  comment_type : String

/-- Filter condition of consolidate_comments.  The Python source
parenthesizes as A or ((B and C and D) if key_path else None): the
conditional expression spans the whole second disjunct. -/
def relevantB (keyPath : List String) (c : CommentInfo) : Bool :=
  c.key_path == keyPath ||
    (match keyPath.getLast? with
     | none => false
     | some klast =>
       c.key_path.length == keyPath.length + 1
         && c.key_path.dropLast == keyPath
         && c.associated_key == some klast)

/-- consolidate_comments of converter.py: relevant comments joined
with the fixed delimiter; an inline comment with a truthy associated
key is prefixed with that key. -/
def consolidateComments (comments : List CommentInfo) (keyPath : List String) :
    Option String :=
  let rel := comments.filter (relevantB keyPath)
  if rel.isEmpty then none
  else some (String.intercalate " | " (rel.map (fun c =>
    match c.associated_key with
    | some k => if !k.isEmpty then k ++ ": " ++ c.text else c.text
    | none => c.text)))

/-- Python truthiness of an Optional[str]. -/
def strOptTruthy : Option String → Bool
  | none => false
  | some s => !s.isEmpty

/-- Python truthiness of a parsed value. -/
def pyTruthy : Value → Bool
  | .vnull => false
  | .vbool b => b
  | .vint n => n ≠ 0
  | .vstr s => !s.isEmpty
  | .vmap entries => !entries.isEmpty
  | .vseq items => !items.isEmpty

/-- Python str() of a value as used by the f-string merge in
add_human_fields: a string renders as itself, other values by repr
(containers render their parts with repr; string repr here uses
single quotes with backslash, quote, newline, tab and carriage-return
escapes, the common case of CPython repr). -/
def pyReprChar (c : Char) : List Char :=
  if c = '\\' then ['\\', '\\']
  else if c = '\'' then ['\\', '\'']
  else if c = '\n' then ['\\', 'n']
  else if c = '\t' then ['\\', 't']
  else if c = '\r' then ['\\', 'r']
  else [c]

mutual

def pyRepr : Value → String
  | .vnull => "None"
  | .vbool true => "True"
  | .vbool false => "False"
  | .vint n => ⟨intDigits n⟩
  | .vstr s => ⟨'\'' :: (s.data.flatMap pyReprChar ++ ['\''])⟩
  | .vmap entries => "\x7b" ++ String.intercalate ", " (pyReprEntries entries) ++ "\x7d"
  | .vseq items => "[" ++ String.intercalate ", " (pyReprItems items) ++ "]"

def pyReprEntries : List (String × Value) → List String
  | [] => []
  | (k, v) :: rest =>
    (pyRepr (Value.vstr k) ++ ": " ++ pyRepr v) :: pyReprEntries rest

def pyReprItems : List Value → List String
  | [] => []
  | v :: rest => pyRepr v :: pyReprItems rest

end

def pyStrOf : Value → String
  | .vstr s => s
  | v => pyRepr v

mutual

/-- add_human_fields of converter.py.  On a dict: consolidate the
comments of the current path, seed the result with the reserved field
when the consolidated text is truthy, then process the keys in order,
merging an existing reserved field and recursing into other values
with the extended path; on a list: recurse into the items with the
index appended to the path; on a scalar: return the value (both
branches of the source return data unchanged). -/
def addHumanFields (comments : List CommentInfo) : Value → List String → Value
  | .vmap entries, path =>
    let hv := consolidateComments comments path
    let acc0 := if strOptTruthy hv then
        [("$human$", Value.vstr (hv.getD ""))] else []
    Value.vmap (addHumanEntries comments entries path hv acc0)
  | .vseq items, path => Value.vseq (addHumanItems comments items path 0)
  | v, _ => v

def addHumanEntries (comments : List CommentInfo) :
    List (String × Value) → List String → Option String →
    List (String × Value) → List (String × Value)
  | [], _, _, acc => acc
  | (k, v) :: rest, path, hv, acc =>
    if k = "$human$" then
      let merged :=
        if strOptTruthy hv then
          if pyTruthy v then Value.vstr (pyStrOf v ++ " | " ++ hv.getD "")
          else Value.vstr (hv.getD "")
        else v
      addHumanEntries comments rest path hv (pyDictInsert acc "$human$" merged)
    else
      addHumanEntries comments rest path hv
        (pyDictInsert acc k (addHumanFields comments v (path ++ [k])))

def addHumanItems (comments : List CommentInfo) :
    List Value → List String → Nat → List Value
  | [], _, _ => []
  | v :: rest, path, i =>
    addHumanFields comments v (path ++ [⟨natDigits i⟩])
      :: addHumanItems comments rest path (i + 1)

end

mutual

/-- strip_human_fields of converter.py. -/
def stripHumanFields : Value → Value
  | .vmap entries => Value.vmap (stripEntries entries)
  | .vseq items => Value.vseq (stripItems items)
  | v => v

def stripEntries : List (String × Value) → List (String × Value)
  | [] => []
  | (k, v) :: rest =>
    if k = "$human$" then stripEntries rest
    else (k, stripHumanFields v) :: stripEntries rest

def stripItems : List Value → List Value
  | [] => []
  | v :: rest => stripHumanFields v :: stripItems rest

end

/-- Substring test used to state that a finding message references
tabs. -/
def hasSubL (needle : List Char) : List Char → Bool
  | [] => needle.isEmpty
  | c :: rest => needle.isPrefixOf (c :: rest) || hasSubL needle rest

def mentionsTab (m : String) : Bool := hasSubL "tab".data m.data

/-- Key lookup on an ordered entry list (first match). -/
def pyLookup (d : List (String × Value)) (k : String) : Option Value :=
  match d with
  | [] => none
  | (a, b) :: rest => if a = k then some b else pyLookup rest k

instance : IsTotal (String × Value) (fun a b => a.1.data ≤ b.1.data) :=
  ⟨fun a b => le_total a.1.data b.1.data⟩

instance : IsTrans (String × Value) (fun a b => a.1.data ≤ b.1.data) :=
  ⟨fun _ _ _ h h2 => le_trans h h2⟩

instance : IsTrans String (fun a b => a.data < b.data) :=
  ⟨fun _ _ _ h h2 => lt_trans h h2⟩

/-!
Theorems.
-/

theorem pyDictInsert_lookup (d : List (String × Value)) (k : String) (v : Value) :
    pyLookup (pyDictInsert d k v) k = some v := by
  unfold pyDictInsert
  split
  case isTrue h =>
    induction d with
    | nil => simp at h
    | cons p rest ih =>
      obtain ⟨a, b⟩ := p
      simp only [List.any_cons, Bool.or_eq_true] at h
      by_cases hk : a = k
      · subst hk
        simp [pyLookup]
      · have h1 : (a == k) = false := by simpa using hk
        simp only [h1, Bool.false_eq_true, false_or] at h
        simp only [List.map_cons, h1, Bool.cond_false, pyLookup, hk, if_false]
        exact ih h
  case isFalse h =>
    induction d with
    | nil => simp [pyLookup]
    | cons p rest ih =>
      obtain ⟨a, b⟩ := p
      simp only [List.any_cons, Bool.or_eq_true, not_or] at h
      have hk : a ≠ k := by simpa using h.1
      simp only [List.cons_append, pyLookup, hk, if_false]
      exact ih h.2

/-- C10: duplicate keys, last occurrence wins.  Parsing a text with
two pairs of the same key at the same level succeeds without error
and binds the key to the last value; in general each parsed pair goes
through pyDictInsert, whose lookup always yields the value just
inserted, discarding the earlier binding. -/
theorem duplicate_keys_last_wins :
    parseRestrictedYaml "a: 1\na: 2" = some (Value.vmap [("a", Value.vint 2)])
    ∧ ∀ (d : List (String × Value)) (k : String) (v : Value),
        pyLookup (pyDictInsert d k v) k = some v :=
  ⟨rfl, pyDictInsert_lookup⟩

/-- C4: scalar classification table.  The bare tokens null, true and
30 classify as Null, Bool and Int because those patterns are checked
first; the quoted token "true" and the identifier abc_1 fall back to
strings. -/
theorem scalar_classification_table :
    parseRestrictedYaml "null" = some Value.vnull
    ∧ parseRestrictedYaml "true" = some (Value.vbool true)
    ∧ parseRestrictedYaml "30" = some (Value.vint 30)
    ∧ parseRestrictedYaml "\"true\"" = some (Value.vstr "true")
    ∧ parseRestrictedYaml "abc_1" = some (Value.vstr "abc_1") :=
  ⟨rfl, rfl, rfl, rfl, rfl⟩

/-- C8: merging one free-standing annotation at the empty path into
the mapping with single key name yields the reserved key first with
the annotation text, and stripping the reserved key restores the
original mapping. -/
theorem human_field_merge_strip :
    addHumanFields [⟨[], none, "note", "line"⟩]
        (Value.vmap [("name", Value.vstr "X")]) []
      = Value.vmap [("$human$", Value.vstr "note"), ("name", Value.vstr "X")]
    ∧ stripHumanFields
        (Value.vmap [("$human$", Value.vstr "note"), ("name", Value.vstr "X")])
      = Value.vmap [("name", Value.vstr "X")] :=
  ⟨rfl, rfl⟩

/-- C5 counterexample: on a text whose second line is over-indented
with no justifying marker, parse does not fail with a structural
error; it succeeds and returns a value in which the over-indented
line was silently dropped. -/
theorem over_indent_returns_value :
    parseRestrictedYaml "a: 1\n    b: 2" = some (Value.vmap [("a", Value.vint 1)]) :=
  rfl

/-- C5 amended: a line whose indent level exceeds the expected level
is not consumed: parse_element reports no element at that level, and
the mapping and list loops skip over the line (advancing the cursor
by one) and keep parsing, so no parse failure and no line-numbered
error is ever produced. -/
theorem over_indent_skipped (lines : List (List Char)) (fuel indent pos : Nat)
    (acc : List (String × Value)) (accL : List Value)
    (hpos : pos < lines.length)
    (hlvl : indent < lineLevel (lines.getD pos [])) :
    parseMapping lines (fuel + 1) indent pos acc
        = parseMapping lines fuel indent (pos + 1) acc
    ∧ parseList lines (fuel + 1) indent pos accL
        = parseList lines fuel indent (pos + 1) accL
    ∧ parseElement lines (fuel + 1) indent pos = some (Value.vnull, pos) := by
  have h1 : ¬ (lineLevel (lines.getD pos []) < indent) := by omega
  have h2 : lineLevel (lines.getD pos []) ≠ indent := by omega
  refine ⟨?_, ?_, ?_⟩
  · simp only [parseMapping, if_pos hpos, if_neg h1]
    rw [if_pos h2]
  · simp only [parseList, if_pos hpos, if_neg h1]
    rw [if_pos h2]
  · simp only [parseElement, if_pos hpos]
    rw [if_pos h2]

theorem over_indent_skipped_witness :
    0 < (pyLinesOf "    b: 2").length
    ∧ 0 < lineLevel ((pyLinesOf "    b: 2").getD 0 [])
    ∧ parseElement (pyLinesOf "    b: 2") 5 0 0 = some (Value.vnull, 0) :=
  ⟨by decide, by decide,
    (over_indent_skipped (pyLinesOf "    b: 2") 4 0 0 [] [] (by decide) (by decide)).2.2⟩

/-- C6 counterexample: a line with 3 leading spaces (not a multiple
of 2) is consumed by parse_element at expected level 1, producing a
value, instead of returning no element. -/
theorem odd_indent_consumed :
    parseElement (pyLinesOf "   b: 1") 9 1 0 = some (Value.vmap [("b", Value.vint 1)], 1)
    ∧ lineIndent ((pyLinesOf "   b: 1").getD 0 []) % 2 = 1 :=
  ⟨rfl, rfl⟩

/-- C6 amended: consumability at a level only depends on the
leading-space count integer-divided by 2: when that quotient differs
from the expected level the element rule reports no element and the
pair rule no pair, both leaving the cursor in place; parity of the
count is never checked, so a count of 2L+1 is consumed at level L. -/
theorem odd_indent_level_rule (lines : List (List Char)) (fuel indent pos : Nat)
    (hpos : pos < lines.length)
    (hlvl : lineIndent (lines.getD pos []) / 2 ≠ indent) :
    parseElement lines (fuel + 1) indent pos = some (Value.vnull, pos)
    ∧ parsePair lines (fuel + 1) indent pos = some (none, pos) := by
  have h2 : lineLevel (lines.getD pos []) ≠ indent := hlvl
  refine ⟨?_, ?_⟩
  · simp only [parseElement, if_pos hpos]
    rw [if_pos h2]
  · simp only [parsePair, if_pos hpos]
    rw [if_pos h2]

theorem odd_indent_level_rule_witness :
    0 < (pyLinesOf "  a: 1").length
    ∧ lineIndent ((pyLinesOf "  a: 1").getD 0 []) / 2 ≠ 0
    ∧ parseElement (pyLinesOf "  a: 1") 5 0 0 = some (Value.vnull, 0) :=
  ⟨by decide, by decide,
    (odd_indent_level_rule (pyLinesOf "  a: 1") 4 0 0 (by decide) (by decide)).1⟩

/-- C7: the validator rejects the tab-containing text with valid
false and an error-severity finding on line 1 whose message
references tabs; in general validity is equivalent to the absence of
error findings, so warnings alone never make a text invalid. -/
theorem tab_rejection_validator :
    (validateString "name:\tJohn\nage: 30\n").valid = false
    ∧ (validateString "name:\tJohn\nage: 30\n").errors.any
        (fun f => f.line == 1 && mentionsTab f.message
          && f.severity == Severity.error) = true
    ∧ ∀ t : String,
        ((validateString t).valid = true ↔ (validateString t).errors = []) := by
  refine ⟨rfl, rfl, fun t => ?_⟩
  simp [validateString, List.isEmpty_iff]

/-- C1 counterexample: the tree with the reserved key serializes to
the reserved-key line, but the parser only accepts identifier keys
(the dollar signs do not match), so the line re-parses as a bare
scalar string and the round trip does not reproduce the tree. -/
theorem roundtrip_reserved_key_break :
    parseRestrictedYaml (toDeterministicYaml (Value.vmap [("$human$", Value.vstr "note")]))
        = some (Value.vstr "$human$: note")
    ∧ parseRestrictedYaml (toDeterministicYaml (Value.vmap [("$human$", Value.vstr "note")]))
        ≠ some (Value.vmap [("$human$", Value.vstr "note")]) := by
  refine ⟨rfl, fun hc => ?_⟩
  have h1 : parseRestrictedYaml
      (toDeterministicYaml (Value.vmap [("$human$", Value.vstr "note")]))
        = some (Value.vstr "$human$: note") := rfl
  rw [h1] at hc
  exact Value.noConfusion (Option.some.inj hc)

/-- C2 counterexample: the reserved-key document is canonical (it is
the serializer output for its tree), yet serializing its parse result
re-quotes the whole line, so serialize after parse is not the
identity on it. -/
theorem canonical_stability_reserved_break :
    toDeterministicYaml (Value.vmap [("$human$", Value.vstr "note")]) = "$human$: note\n"
    ∧ toDeterministicYaml ((parseRestrictedYaml "$human$: note\n").getD Value.vnull)
        ≠ "$human$: note\n" := by
  refine ⟨rfl, fun hc => ?_⟩
  have h1 : toDeterministicYaml ((parseRestrictedYaml "$human$: note\n").getD Value.vnull)
      = "\"$human$: note\"\n" := rfl
  rw [h1] at hc
  exact absurd (congrArg String.data hc) (by decide)

theorem skipBlankAux_ge : ∀ (r : List (List Char)) (pos : Nat), pos ≤ skipBlankAux r pos := by
  intro r
  induction r with
  | nil => intro pos; exact Nat.le_refl pos
  | cons l t ih =>
    intro pos
    simp only [skipBlankAux]
    split
    · exact Nat.le_trans (Nat.le_succ pos) (ih (pos + 1))
    · exact Nat.le_refl pos

theorem skipBlank_ge (lines : List (List Char)) (pos : Nat) : pos ≤ skipBlank lines pos :=
  skipBlankAux_ge _ _

theorem parseTotalAux (lines : List (List Char)) :
    ∀ fuel indent pos : Nat, ∀ acc : List (String × Value), ∀ accL : List Value,
    (3 * (lines.length - pos) + 3 ≤ fuel →
      ∃ v p, parseElement lines fuel indent pos = some (v, p) ∧ pos ≤ p)
    ∧ (3 * (lines.length - pos) + 2 ≤ fuel →
      ∃ m p, parseMapping lines fuel indent pos acc = some (m, p) ∧ pos ≤ p)
    ∧ (3 * (lines.length - pos) + 1 ≤ fuel →
      ∃ r p, parsePair lines fuel indent pos = some (r, p) ∧ pos ≤ p
        ∧ (∀ kv, r = some kv → pos + 1 ≤ p))
    ∧ (3 * (lines.length - pos) + 2 ≤ fuel →
      ∃ l p, parseList lines fuel indent pos accL = some (l, p) ∧ pos ≤ p) := by
  intro fuel
  induction fuel with
  | zero => intro indent pos acc accL; exact ⟨by omega, by omega, by omega, by omega⟩
  | succ fuel ih =>
    intro indent pos acc accL
    refine ⟨?_, ?_, ?_, ?_⟩
    -- parseElement
    · intro hf
      by_cases hp : pos < lines.length
      · by_cases hl : lineLevel (lines.getD pos []) = indent
        · by_cases hic : identColonB (lstripL (lines.getD pos [])) = true
          · obtain ⟨m, p, hm, hple⟩ := ((ih indent pos [] accL).2.1 (by omega))
            refine ⟨Value.vmap m, p, ?_, hple⟩
            simp only [parseElement, if_pos hp]
            rw [if_neg (by omega), if_pos hic, hm]
          · by_cases hd : ['-', ' '].isPrefixOf (lstripL (lines.getD pos [])) = true
            · obtain ⟨l, p, hl2, hple⟩ := ((ih indent pos acc []).2.2.2 (by omega))
              refine ⟨Value.vseq l, p, ?_, hple⟩
              simp only [parseElement, if_pos hp]
              rw [if_neg (by omega), if_neg hic, if_pos hd, hl2]
            · refine ⟨parseScalarString (lstripL (lines.getD pos [])), pos + 1, ?_, by omega⟩
              simp only [parseElement, if_pos hp]
              rw [if_neg (by omega), if_neg hic, if_neg hd]
        · refine ⟨Value.vnull, pos, ?_, Nat.le_refl pos⟩
          simp only [parseElement, if_pos hp]
          rw [if_pos hl]
      · refine ⟨Value.vnull, pos, ?_, Nat.le_refl pos⟩
        simp only [parseElement, if_neg hp]
    -- parseMapping
    · intro hf
      by_cases hp : pos < lines.length
      · by_cases hlt : lineLevel (lines.getD pos []) < indent
        · refine ⟨acc, pos, ?_, Nat.le_refl pos⟩
          simp only [parseMapping, if_pos hp, if_pos hlt]
        · by_cases hl : lineLevel (lines.getD pos []) = indent
          · obtain ⟨r, p, hpr, hple, hsome⟩ := ((ih indent pos acc accL).2.2.1 (by omega))
            match r, hpr with
            | none, hpr =>
              refine ⟨acc, p, ?_, hple⟩
              simp only [parseMapping, if_pos hp, if_neg hlt]
              rw [if_neg (by omega), hpr]
            | some (k, v), hpr =>
              have hp1 : pos + 1 ≤ p := hsome (k, v) rfl
              obtain ⟨m, p2, hm, hp2⟩ :=
                ((ih indent p (pyDictInsert acc k v) accL).2.1 (by omega))
              refine ⟨m, p2, ?_, by omega⟩
              simp only [parseMapping, if_pos hp, if_neg hlt]
              rw [if_neg (by omega), hpr]
              exact hm
          · obtain ⟨m, p, hm, hple⟩ := ((ih indent (pos + 1) acc accL).2.1 (by omega))
            refine ⟨m, p, ?_, by omega⟩
            simp only [parseMapping, if_pos hp, if_neg hlt]
            rw [if_pos hl, hm]
      · refine ⟨acc, pos, ?_, Nat.le_refl pos⟩
        simp only [parseMapping, if_neg hp]
    -- parsePair
    · intro hf
      by_cases hp : pos < lines.length
      · by_cases hl : lineLevel (lines.getD pos []) = indent
        · match hpf : pairFields (lstripL (lines.getD pos [])) with
          | none =>
            refine ⟨none, pos, ?_, Nat.le_refl pos, fun kv h => nomatch h⟩
            simp only [parsePair, if_pos hp]
            rw [if_neg (by omega), hpf]
          | some (k, rest) =>
            by_cases hsc : (!(stripL rest).isEmpty && isScalarB (stripL rest)) = true
            · refine ⟨some (⟨k⟩, parseScalarString (stripL rest)), pos + 1, ?_,
                by omega, fun kv h => Nat.le_refl _⟩
              simp only [parsePair, if_pos hp]
              rw [if_neg (by omega), hpf]
              simp only [hsc, if_pos]
            · by_cases h1 : pos + 1 < lines.length
              · have hge : pos + 1 ≤ skipBlank lines (pos + 1) := skipBlank_ge _ _
                by_cases h2 : skipBlank lines (pos + 1) < lines.length
                · by_cases h3 :
                    lineLevel (lines.getD (skipBlank lines (pos + 1)) []) = indent + 1
                  · obtain ⟨v, p, he, hple⟩ :=
                      ((ih (indent + 1) (skipBlank lines (pos + 1)) acc accL).1 (by omega))
                    refine ⟨some (⟨k⟩, v), p, ?_, by omega, fun kv h => by omega⟩
                    simp only [parsePair, if_pos hp]
                    rw [if_neg (by omega), hpf]
                    simp only [hsc, if_neg, if_pos h1, if_pos h2, if_pos h3, he]
                    simp
                  · by_cases h4 :
                      lineLevel (lines.getD (skipBlank lines (pos + 1)) []) ≤ indent
                    · refine ⟨some (⟨k⟩, Value.vnull), pos + 1, ?_, by omega,
                        fun kv h => Nat.le_refl _⟩
                      simp only [parsePair, if_pos hp]
                      rw [if_neg (by omega), hpf]
                      simp only [hsc, if_pos h1, if_pos h2, if_neg h3, if_pos h4]
                      simp
                    · refine ⟨some (⟨k⟩, Value.vnull), skipBlank lines (pos + 1), ?_,
                        by omega, fun kv h => by omega⟩
                      simp only [parsePair, if_pos hp]
                      rw [if_neg (by omega), hpf]
                      simp only [hsc, if_pos h1, if_pos h2, if_neg h3, if_neg h4]
                      simp
                · refine ⟨some (⟨k⟩, Value.vnull), pos + 1, ?_, by omega,
                    fun kv h => Nat.le_refl _⟩
                  simp only [parsePair, if_pos hp]
                  rw [if_neg (by omega), hpf]
                  simp only [hsc, if_pos h1, if_neg h2]
                  simp
              · refine ⟨some (⟨k⟩, Value.vnull), pos + 1, ?_, by omega,
                  fun kv h => Nat.le_refl _⟩
                simp only [parsePair, if_pos hp]
                rw [if_neg (by omega), hpf]
                simp only [hsc, if_neg h1]
                simp
        · refine ⟨none, pos, ?_, Nat.le_refl pos, fun kv h => nomatch h⟩
          simp only [parsePair, if_pos hp]
          rw [if_pos hl]
      · refine ⟨none, pos, ?_, Nat.le_refl pos, fun kv h => nomatch h⟩
        simp only [parsePair, if_neg hp]
    -- parseList
    · intro hf
      by_cases hp : pos < lines.length
      · by_cases hlt : lineLevel (lines.getD pos []) < indent
        · refine ⟨accL, pos, ?_, Nat.le_refl pos⟩
          simp only [parseList, if_pos hp, if_pos hlt]
        · by_cases hl : lineLevel (lines.getD pos []) = indent
          · by_cases hd : ['-', ' '].isPrefixOf (lstripL (lines.getD pos [])) = true
            · by_cases hsc :
                (!(lstripL (List.drop 2 (lstripL (lines.getD pos [])))).isEmpty &&
                  isScalarB (lstripL (List.drop 2 (lstripL (lines.getD pos []))))) = true
              · obtain ⟨l, p, hl2, hple⟩ :=
                  ((ih indent (pos + 1) acc
                    (accL ++ [parseScalarString
                      (lstripL (List.drop 2 (lstripL (lines.getD pos []))))])).2.2.2
                    (by omega))
                refine ⟨l, p, ?_, by omega⟩
                simp only [parseList, if_pos hp, if_neg hlt]
                rw [if_neg (by omega), if_pos hd]
                simp only [hsc, if_pos, hl2]
              · by_cases h1 : pos + 1 < lines.length
                · by_cases h3 : lineLevel (lines.getD (pos + 1) []) = indent + 1
                  · obtain ⟨v, p, he, hple⟩ :=
                      ((ih (indent + 1) (pos + 1) acc accL).1 (by omega))
                    obtain ⟨l, p2, hl2, hp2⟩ :=
                      ((ih indent p acc (accL ++ [v])).2.2.2 (by omega))
                    refine ⟨l, p2, ?_, by omega⟩
                    simp only [parseList, if_pos hp, if_neg hlt]
                    rw [if_neg (by omega), if_pos hd]
                    simp only [hsc, if_neg, if_pos h1, if_pos h3, he, hl2]
                    simp
                  · by_cases h5 :
                      (!(lstripL (List.drop 2 (lstripL (lines.getD pos [])))).isEmpty) = true
                    · obtain ⟨l, p, hl2, hple⟩ :=
                        ((ih indent (pos + 1) acc
                          (accL ++ [parseScalarString
                            (lstripL (List.drop 2 (lstripL (lines.getD pos []))))])).2.2.2
                          (by omega))
                      refine ⟨l, p, ?_, by omega⟩
                      simp only [parseList, if_pos hp, if_neg hlt]
                      rw [if_neg (by omega), if_pos hd]
                      simp only [hsc, if_pos h1, if_neg h3, h5, hl2]
                      simp
                    · obtain ⟨l, p, hl2, hple⟩ :=
                        ((ih indent (pos + 1) acc (accL ++ [Value.vnull])).2.2.2 (by omega))
                      refine ⟨l, p, ?_, by omega⟩
                      simp only [parseList, if_pos hp, if_neg hlt]
                      rw [if_neg (by omega), if_pos hd]
                      simp only [hsc, if_pos h1, if_neg h3, h5, hl2]
                      simp
                · by_cases h5 :
                    (!(lstripL (List.drop 2 (lstripL (lines.getD pos [])))).isEmpty) = true
                  · obtain ⟨l, p, hl2, hple⟩ :=
                      ((ih indent (pos + 1) acc
                        (accL ++ [parseScalarString
                          (lstripL (List.drop 2 (lstripL (lines.getD pos []))))])).2.2.2
                        (by omega))
                    refine ⟨l, p, ?_, by omega⟩
                    simp only [parseList, if_pos hp, if_neg hlt]
                    rw [if_neg (by omega), if_pos hd]
                    simp only [hsc, if_neg h1, h5, hl2]
                    simp
                  · obtain ⟨l, p, hl2, hple⟩ :=
                      ((ih indent (pos + 1) acc (accL ++ [Value.vnull])).2.2.2 (by omega))
                    refine ⟨l, p, ?_, by omega⟩
                    simp only [parseList, if_pos hp, if_neg hlt]
                    rw [if_neg (by omega), if_pos hd]
                    simp only [hsc, if_neg h1, h5, hl2]
                    simp
            · refine ⟨accL, pos, ?_, Nat.le_refl pos⟩
              simp only [parseList, if_pos hp, if_neg hlt]
              rw [if_neg (by omega), if_neg hd]
          · obtain ⟨l, p, hl2, hple⟩ := ((ih indent (pos + 1) acc accL).2.2.2 (by omega))
            refine ⟨l, p, ?_, by omega⟩
            simp only [parseList, if_pos hp, if_neg hlt]
            rw [if_pos hl, hl2]
      · refine ⟨accL, pos, ?_, Nat.le_refl pos⟩
        simp only [parseList, if_neg hp]

/-- C9: parser totality.  For every input text the top entry point
returns a value: the fuel 3 * lines + 3 is sufficient for every
recursion path (no fuel exhaustion, hence the Python recursion
terminates and no exception is raised under the idealised semantics),
and the empty string and all-blank input both return None. -/
theorem parser_total :
    (∀ text : String, ∃ v : Value, parseRestrictedYaml text = some v)
    ∧ parseRestrictedYaml "" = some Value.vnull
    ∧ parseRestrictedYaml "\n  \n" = some Value.vnull := by
  refine ⟨fun text => ?_, rfl, rfl⟩
  unfold parseRestrictedYaml
  by_cases he : (pyLinesOf text).isEmpty
  · refine ⟨Value.vnull, ?_⟩
    simp only [he, if_pos]
  · by_cases hp : skipBlank (pyLinesOf text) 0 < (pyLinesOf text).length
    · obtain ⟨v, p, hv, _⟩ :=
        (parseTotalAux (pyLinesOf text) (parseFuel (pyLinesOf text)) 0
          (skipBlank (pyLinesOf text) 0) [] []).1 (by unfold parseFuel; omega)
    
      refine ⟨v, ?_⟩
      simp only [he, Bool.false_eq_true, if_false, if_pos hp, hv]
    · refine ⟨Value.vnull, ?_⟩
      simp only [he, Bool.false_eq_true, if_false, if_neg hp]

theorem identChar_not_space {c : Char} (h : isIdentChar c = true) : isPySpace c = false := by
  simp only [isIdentChar, Bool.or_eq_true, Bool.and_eq_true, decide_eq_true_eq] at h
  simp only [isPySpace, Bool.or_eq_false_iff, decide_eq_false_iff_not]
  omega

theorem digitChar_not_space {c : Char} (h : isDigitChar c = true) : isPySpace c = false := by
  simp only [isDigitChar, Bool.and_eq_true, decide_eq_true_eq] at h
  simp only [isPySpace, Bool.or_eq_false_iff, decide_eq_false_iff_not]
  omega

theorem digit_is_ident {c : Char} (h : isDigitChar c = true) : isIdentChar c = true := by
  simp only [isDigitChar, Bool.and_eq_true, decide_eq_true_eq] at h
  simp only [isIdentChar, Bool.or_eq_true, Bool.and_eq_true, decide_eq_true_eq]
  omega

theorem identChar_ne_colon {c : Char} (h : isIdentChar c = true) : c ≠ ':' := by
  rintro rfl; exact absurd h (by decide)

theorem identChar_ne_quote {c : Char} (h : isIdentChar c = true) : c ≠ '"' := by
  rintro rfl; exact absurd h (by decide)

theorem identChar_ne_nl {c : Char} (h : isIdentChar c = true) : c ≠ '\n' := by
  rintro rfl; exact absurd h (by decide)

theorem identChar_ne_dash {c : Char} (h : isIdentChar c = true) : c ≠ '-' := by
  rintro rfl; exact absurd h (by decide)

theorem digitChar_cases {c : Char} (h : isDigitChar c = true) :
    c ≠ '\n' ∧ c ≠ ':' ∧ c ≠ '-' ∧ c ≠ ' ' ∧ c ≠ '"' := by
  refine ⟨?_, ?_, ?_, ?_, ?_⟩ <;> rintro rfl <;> exact absurd h (by decide)

theorem lstripL_cons_nospace {c : Char} {l : List Char} (h : isPySpace c = false) :
    lstripL (c :: l) = c :: l := by
  simp [lstripL, List.dropWhile_cons, h]

theorem lstripL_replicate_space (n : Nat) (s : List Char) :
    lstripL (List.replicate n ' ' ++ s) = lstripL s := by
  induction n with
  | zero => simp
  | succ n ih =>
    simp only [List.replicate_succ, List.cons_append, lstripL, List.dropWhile_cons]
    norm_num [isPySpace]
    exact ih

theorem rstripL_concat_nospace {c : Char} {l : List Char} (h : isPySpace c = false) :
    rstripL (l ++ [c]) = l ++ [c] := by
  simp [rstripL, List.reverse_append, List.dropWhile_cons, h]

theorem stripL_eq_self {t : List Char} (hne : t ≠ [])
    (hh : isPySpace (t.headD ' ') = false) (hl : isPySpace (t.getLastD ' ') = false) :
    stripL t = t := by
  have h1 : rstripL t = t := by
    have hd : t = t.dropLast ++ [t.getLast hne] := (List.dropLast_append_getLast hne).symm
    rw [hd]
    apply rstripL_concat_nospace
    rwa [List.getLastD_eq_getLast? , List.getLast?_eq_getLast t hne] at hl
  rw [stripL, h1]
  match t, hne with
  | c :: t', _ =>
    exact lstripL_cons_nospace (by simpa using hh)

theorem digitChar_spec : ∀ n, n < 10 → (digitChar n).toNat = 48 + n ∧ isDigitChar (digitChar n) = true := by
  decide

theorem digitsToNat_concat (xs : List Char) (c : Char) :
    digitsToNat (xs ++ [c]) = digitsToNat xs * 10 + (c.toNat - 48) := by
  simp [digitsToNat, List.foldl_append]

theorem natDigitsF_spec :
    ∀ f n, n < f → natDigitsF f n ≠ []
      ∧ (∀ c ∈ natDigitsF f n, isDigitChar c = true)
      ∧ digitsToNat (natDigitsF f n) = n := by
  intro f
  induction f with
  | zero => intro n h; omega
  | succ f ih =>
    intro n h
    by_cases h10 : n < 10
    · refine ⟨by simp [natDigitsF, h10], ?_, ?_⟩
      · intro c hc
        simp only [natDigitsF, if_pos h10, List.mem_singleton] at hc
        subst hc
        exact (digitChar_spec n h10).2
      · simp only [natDigitsF, if_pos h10, digitsToNat, List.foldl_cons, List.foldl_nil]
        rw [(digitChar_spec n h10).1]
        omega
    · have hdiv : n / 10 < f := by
        have h2 : n / 10 < n := Nat.div_lt_self (by omega) (by omega)
        omega
      obtain ⟨hne, hdig, hval⟩ := ih (n / 10) hdiv
      refine ⟨by simp [natDigitsF, h10], ?_, ?_⟩
      · intro c hc
        simp only [natDigitsF, if_neg h10, List.mem_append, List.mem_singleton] at hc
        rcases hc with hc | hc
        · exact hdig c hc
        · subst hc
          exact (digitChar_spec (n % 10) (by omega)).2
      · simp only [natDigitsF, if_neg h10]
        rw [digitsToNat_concat, hval, (digitChar_spec (n % 10) (by omega)).1]
        omega

theorem natDigits_spec (n : Nat) :
    natDigits n ≠ []
      ∧ (∀ c ∈ natDigits n, isDigitChar c = true)
      ∧ digitsToNat (natDigits n) = n :=
  natDigitsF_spec (n + 1) n (Nat.lt_succ_self n)

theorem identColonB_colon_mem {l : List Char} (h : identColonB l = true) : ':' ∈ l := by
  simp only [identColonB, Bool.and_eq_true, beq_iff_eq] at h
  obtain ⟨-, h2⟩ := h
  rcases hd : l.drop (l.takeWhile isIdentChar).length with _ | ⟨c, t⟩
  · rw [hd] at h2; simp at h2
  · rw [hd] at h2
    simp only [List.head?_cons, Option.some.injEq] at h2
    subst h2
    exact List.mem_of_mem_drop (hd ▸ List.mem_cons_self _ _)

theorem identColonB_false_of_no_colon {l : List Char} (h : ':' ∉ l) :
    identColonB l = false := by
  by_contra hc
  exact h (identColonB_colon_mem (by simpa using hc))

theorem identColonB_false_of_head {l : List Char}
    (h : isIdentChar (l.headD ':') = false) : identColonB l = false := by
  match l with
  | [] => rfl
  | c :: t =>
    simp only [List.headD_cons] at h
    simp [identColonB, List.takeWhile_cons, h]

theorem takeWhile_all_append {p : Char → Bool} {k : List Char} {c : Char} {r : List Char}
    (hk : ∀ x ∈ k, p x = true) (hc : p c = false) :
    (k ++ c :: r).takeWhile p = k ∧ (k ++ c :: r).drop k.length = c :: r := by
  constructor
  · induction k with
    | nil => simp [List.takeWhile_cons, hc]
    | cons a t ih =>
      simp only [List.cons_append, List.takeWhile_cons, hk a (List.mem_cons_self a t), if_pos]
      rw [ih (fun x hx => hk x (List.mem_cons_of_mem a hx))]
  · rw [List.drop_append_of_le_length (by simp)]
    simp

theorem dash_false_of_head {l : List Char} (h : l.headD ' ' ≠ '-') :
    ['-', ' '].isPrefixOf l = false := by
  match l with
  | [] => rfl
  | c :: t =>
    simp only [List.headD_cons] at h
    simp [List.isPrefixOf, Ne.symm h]

theorem dash_false_of_second {c2 : Char} {l : List Char} (h : c2 ≠ ' ') :
    ['-', ' '].isPrefixOf ('-' :: c2 :: l) = false := by
  simp [List.isPrefixOf, Ne.symm h]

theorem unescape_cons_plain {c : Char} (r : List Char) (h : c ≠ '\\') :
    unescape (c :: r) = c :: unescape r := by
  rcases r with _ | ⟨d, r2⟩
  · simp [unescape, h]
  · simp [unescape, h]

theorem unescape_escape (l : List Char) : unescape (escapeL l) = l := by
  induction l with
  | nil => rfl
  | cons c t ih =>
    show unescape (escChar c ++ escapeL t) = c :: t
    by_cases h1 : c = '\\'
    · subst h1
      have : unescape ('\\' :: '\\' :: escapeL t) = '\\' :: unescape (escapeL t) := by
        simp [unescape]
      simpa [escChar, this] using congrArg (List.cons '\\') ih
    · by_cases h2 : c = '"'
      · subst h2
        have : unescape ('\\' :: '"' :: escapeL t) = '"' :: unescape (escapeL t) := by
          simp [unescape]
        simpa [escChar, this] using congrArg (List.cons '"') ih
      · by_cases h3 : c = '\n'
        · subst h3
          have : unescape ('\\' :: 'n' :: escapeL t) = '\n' :: unescape (escapeL t) := by
            simp [unescape]
          simpa [escChar, this] using congrArg (List.cons '\n') ih
        · by_cases h4 : c = '\t'
          · subst h4
            have : unescape ('\\' :: 't' :: escapeL t) = '\t' :: unescape (escapeL t) := by
              simp [unescape]
            simpa [escChar, this] using congrArg (List.cons '\t') ih
          · by_cases h5 : c = '\r'
            · subst h5
              have : unescape ('\\' :: 'r' :: escapeL t) = '\r' :: unescape (escapeL t) := by
                simp [unescape]
              simpa [escChar, this] using congrArg (List.cons '\r') ih
            · have hx : escChar c = [c] := by
                simp [escChar, h1, h2, h3, h4, h5]
              rw [hx, List.cons_append, List.nil_append, unescape_cons_plain _ h1, ih]

theorem headD_mem {α : Type} {l : List α} (h : l ≠ []) (d : α) : l.headD d ∈ l := by
  match l, h with
  | c :: t, _ => exact List.mem_cons_self c t

theorem getLastD_mem {α : Type} {l : List α} (h : l ≠ []) (d : α) : l.getLastD d ∈ l := by
  rw [List.getLastD_eq_getLast?, List.getLast?_eq_getLast l h]
  simp only [Option.getD_some]
  exact List.getLast_mem h

theorem getLastD_concat {α : Type} (l : List α) (c d : α) :
    (l ++ [c]).getLastD d = c := by
  rw [List.getLastD_eq_getLast?, List.getLast?_concat]
  rfl

theorem ne_list_of_headD {l l' : List Char} {d : Char} (h : l.headD d ≠ l'.headD d) :
    l ≠ l' := fun he => h (he ▸ rfl)

theorem identTok_facts {l : List Char} (h : identTokB l = true) :
    l ≠ [] ∧ ∀ c ∈ l, isIdentChar c = true := by
  simp only [identTokB, Bool.and_eq_true, Bool.not_eq_true', List.isEmpty_eq_false,
    List.all_eq_true] at h
  exact h

theorem escapeL_no_nl (l : List Char) : '\n' ∉ escapeL l := by
  intro hm
  simp only [escapeL, List.mem_flatMap] at hm
  obtain ⟨c, _, hc⟩ := hm
  by_cases h1 : c = '\\'
  · subst h1; simp [escChar] at hc
  · by_cases h2 : c = '"'
    · subst h2; simp [escChar] at hc
    · by_cases h3 : c = '\n'
      · subst h3; simp [escChar] at hc
      · by_cases h4 : c = '\t'
        · subst h4; simp [escChar] at hc
        · by_cases h5 : c = '\r'
          · subst h5; simp [escChar] at hc
          · simp only [escChar, if_neg h1, if_neg h2, if_neg h3, if_neg h4, if_neg h5,
              List.mem_singleton] at hc
            exact h3 hc.symm

theorem intDigits_head (n : Int) :
    (intDigits n).headD ' ' = '-' ∨ isDigitChar ((intDigits n).headD ' ') = true := by
  unfold intDigits
  split
  · left; rfl
  · right
    obtain ⟨hne, hdig, -⟩ := natDigits_spec n.toNat
    exact hdig _ (headD_mem hne ' ')

theorem intDigits_facts (n : Int) :
    intDigits n ≠ []
      ∧ '\n' ∉ intDigits n
      ∧ ':' ∉ intDigits n
      ∧ isPySpace ((intDigits n).headD ' ') = false
      ∧ isPySpace ((intDigits n).getLastD ' ') = false := by
  unfold intDigits
  split
  case isTrue h =>
    obtain ⟨hne, hdig, -⟩ := natDigits_spec n.natAbs
    have hhd : isPySpace (('-' :: natDigits n.natAbs).headD ' ') = false := by
      rw [List.headD_cons]; decide
    refine ⟨by simp, ?_, ?_, hhd, ?_⟩
    · intro hm
      rcases List.mem_cons.mp hm with hh | hh
      · exact absurd hh.symm (by decide)
      · exact absurd (hdig _ hh) (by decide)
    · intro hm
      rcases List.mem_cons.mp hm with hh | hh
      · exact absurd hh.symm (by decide)
      · exact absurd (hdig _ hh) (by decide)
    · have : ('-' :: natDigits n.natAbs).getLastD ' ' ∈ '-' :: natDigits n.natAbs :=
        getLastD_mem (by simp) ' '
      rcases List.mem_cons.mp this with hh | hh
      · rw [hh]; decide
      · exact digitChar_not_space (hdig _ hh)
  case isFalse h =>
    obtain ⟨hne, hdig, -⟩ := natDigits_spec n.toNat
    refine ⟨hne, ?_, ?_, ?_, ?_⟩
    · intro hm; exact absurd (hdig _ hm) (by decide)
    · intro hm; exact absurd (hdig _ hm) (by decide)
    · exact digitChar_not_space (hdig _ (headD_mem hne ' '))
    · exact digitChar_not_space (hdig _ (getLastD_mem hne ' '))

theorem numTokB_cons_ne {c : Char} {r : List Char} (h : c ≠ '-') :
    numTokB (c :: r) = digitsNE (c :: r) := by
  simp [numTokB, h]

theorem pyIntOf_cons_ne {c : Char} {r : List Char} (h : c ≠ '-') :
    pyIntOf (c :: r) = (digitsToNat (c :: r) : Int) := by
  simp [pyIntOf, h]

theorem intDigits_numTok (n : Int) : numTokB (intDigits n) = true := by
  unfold intDigits
  split
  · show numTokB ('-' :: natDigits n.natAbs) = true
    obtain ⟨hne, hdig, -⟩ := natDigits_spec n.natAbs
    simp only [numTokB, digitsNE, Bool.and_eq_true, Bool.not_eq_true', List.isEmpty_eq_false,
      List.all_eq_true]
    exact ⟨hne, hdig⟩
  · obtain ⟨hne, hdig, -⟩ := natDigits_spec n.toNat
    match hd : natDigits n.toNat, hne with
    | c :: r, _ =>
      have hc : c ≠ '-' := by
        have := hdig c (by rw [hd]; exact List.mem_cons_self c r)
        exact (digitChar_cases this).2.2.1
      rw [numTokB_cons_ne hc]
      have h2 : ∀ x ∈ c :: r, isDigitChar x = true := by rw [← hd]; exact hdig
      simp only [digitsNE, Bool.and_eq_true, Bool.not_eq_true', List.isEmpty_eq_false,
        List.all_eq_true]
      exact ⟨by simp, h2⟩

theorem intDigits_val (n : Int) : pyIntOf (intDigits n) = n := by
  unfold intDigits
  split
  case isTrue h =>
    show pyIntOf ('-' :: natDigits n.natAbs) = n
    obtain ⟨-, -, hval⟩ := natDigits_spec n.natAbs
    simp only [pyIntOf, hval]
    omega
  case isFalse h =>
    obtain ⟨hne, hdig, hval⟩ := natDigits_spec n.toNat
    match hd : natDigits n.toNat, hne with
    | c :: r, _ =>
      have hc : c ≠ '-' := by
        have := hdig c (by rw [hd]; exact List.mem_cons_self c r)
        exact (digitChar_cases this).2.2.1
      rw [pyIntOf_cons_ne hc, ← hd, hval]
      omega

theorem bareOK_facts {l : List Char} (h : bareOK l = true) :
    identTokB l = true ∧ numTokB l = false
      ∧ l ≠ "null".data ∧ l ≠ "true".data ∧ l ≠ "false".data := by
  simp only [bareOK, Bool.and_eq_true, Bool.not_eq_true', beq_eq_false_iff_ne] at h
  exact ⟨h.1.1.1.1, h.1.1.1.2, h.1.1.2, h.1.2, h.2⟩

theorem encScalar_sanity (v : Value) (hs : isScalarValue v = true) :
    encScalar v ≠ []
      ∧ isPySpace ((encScalar v).headD ' ') = false
      ∧ isPySpace ((encScalar v).getLastD ' ') = false
      ∧ '\n' ∉ encScalar v := by
  match v, hs with
  | Value.vnull, _ => exact ⟨by decide, by decide, by decide, by decide⟩
  | Value.vbool true, _ => exact ⟨by decide, by decide, by decide, by decide⟩
  | Value.vbool false, _ => exact ⟨by decide, by decide, by decide, by decide⟩
  | Value.vint n, _ =>
    obtain ⟨h1, h2, h3, h4, h5⟩ := intDigits_facts n
    exact ⟨h1, h4, h5, h2⟩
  | Value.vstr s, _ =>
    by_cases hb : bareOK s.data = true
    · have he : encScalar (Value.vstr s) = s.data := by simp [encScalar, hb]
      rw [he]
      obtain ⟨hident, -⟩ := bareOK_facts hb
      obtain ⟨hne, hall⟩ := identTok_facts hident
      refine ⟨hne, identChar_not_space (hall _ (headD_mem hne ' ')),
        identChar_not_space (hall _ (getLastD_mem hne ' ')), ?_⟩
      intro hm
      exact identChar_ne_nl (hall _ hm) rfl
    · have he : encScalar (Value.vstr s) = '"' :: (escapeL s.data ++ ['"']) := by
        simp [encScalar, hb]
      rw [he]
      refine ⟨by simp, by rw [List.headD_cons]; decide, ?_, ?_⟩
      · rw [show ('"' :: (escapeL s.data ++ ['"'])) = ('"' :: escapeL s.data) ++ ['"'] by simp,
          getLastD_concat]
        decide
      · intro hm
        rcases List.mem_cons.mp hm with hh | hh
        · exact absurd hh.symm (by decide)
        · rcases List.mem_append.mp hh with hh2 | hh2
          · exact escapeL_no_nl s.data hh2
          · exact absurd (List.mem_singleton.mp hh2).symm (by decide)

theorem encScalar_strip (v : Value) (hs : isScalarValue v = true) :
    stripL (encScalar v) = encScalar v := by
  obtain ⟨h1, h2, h3, -⟩ := encScalar_sanity v hs
  exact stripL_eq_self h1 h2 h3

theorem strMkData (s : String) : String.mk s.data = s := rfl

theorem parseScalarString_num {l : List Char} (hst : stripL l = l) (hne : l ≠ [])
    (h0 : l ≠ "null".data) (h1 : l ≠ "true".data) (h2 : l ≠ "false".data)
    (hnum : numTokB l = true) :
    parseScalarString l = Value.vint (pyIntOf l) := by
  simp only [parseScalarString, hst]
  rw [if_neg (by simpa [List.isEmpty_eq_false] using hne), if_neg h0, if_neg h1, if_neg h2,
    if_pos hnum]

theorem parseScalarString_plain {l : List Char} (hst : stripL l = l) (hne : l ≠ [])
    (h0 : l ≠ "null".data) (h1 : l ≠ "true".data) (h2 : l ≠ "false".data)
    (hnum : numTokB l = false)
    (hq : (l.head? == some '"' && l.getLast? == some '"') = false) :
    parseScalarString l = Value.vstr ⟨l⟩ := by
  simp only [parseScalarString, hst]
  rw [if_neg (by simpa [List.isEmpty_eq_false] using hne), if_neg h0, if_neg h1, if_neg h2,
    if_neg (by simp [hnum]), if_neg (by simp [hq])]

theorem parseScalarString_quoted {l : List Char} (hst : stripL l = l) (hne : l ≠ [])
    (h0 : l ≠ "null".data) (h1 : l ≠ "true".data) (h2 : l ≠ "false".data)
    (hnum : numTokB l = false)
    (hq : (l.head? == some '"' && l.getLast? == some '"') = true) :
    parseScalarString l = Value.vstr ⟨unescape (dropQuotes l)⟩ := by
  simp only [parseScalarString, hst]
  rw [if_neg (by simpa [List.isEmpty_eq_false] using hne), if_neg h0, if_neg h1, if_neg h2,
    if_neg (by simp [hnum]), if_pos hq]

theorem encScalar_parse (v : Value) (hs : isScalarValue v = true) :
    parseScalarString (encScalar v) = v := by
  match v, hs with
  | Value.vnull, _ => rfl
  | Value.vbool true, _ => rfl
  | Value.vbool false, _ => rfl
  | Value.vint n, _ =>
    obtain ⟨hne, hnl, hcol, hhd, hlst⟩ := intDigits_facts n
    have hd := intDigits_head n
    have hne0 : encScalar (Value.vint n) = intDigits n := rfl
    rw [hne0]
    have hnn : intDigits n ≠ "null".data := by
      apply ne_list_of_headD (d := ' ')
      rcases hd with hd | hd
      · rw [hd]; decide
      · intro he; rw [he] at hd; exact absurd hd (by decide)
    have hnt : intDigits n ≠ "true".data := by
      apply ne_list_of_headD (d := ' ')
      rcases hd with hd | hd
      · rw [hd]; decide
      · intro he; rw [he] at hd; exact absurd hd (by decide)
    have hnf : intDigits n ≠ "false".data := by
      apply ne_list_of_headD (d := ' ')
      rcases hd with hd | hd
      · rw [hd]; decide
      · intro he; rw [he] at hd; exact absurd hd (by decide)
    have hst : stripL (intDigits n) = intDigits n := encScalar_strip (Value.vint n) rfl
    rw [parseScalarString_num hst hne hnn hnt hnf (intDigits_numTok n), intDigits_val n]
  | Value.vstr s, _ =>
    by_cases hb : bareOK s.data = true
    · have he : encScalar (Value.vstr s) = s.data := by simp [encScalar, hb]
      obtain ⟨hident, hnum, h0, h1, h2⟩ := bareOK_facts hb
      obtain ⟨hne, hall⟩ := identTok_facts hident
      have hq : (s.data.head? == some '"' && s.data.getLast? == some '"') = false := by
        match hd : s.data, hne with
        | c :: t, _ =>
          have hc : isIdentChar c = true := by
            apply hall; rw [hd]; exact List.mem_cons_self c t
          simp only [List.head?_cons, Bool.and_eq_false_iff]
          left
          simp only [beq_eq_false_iff_ne, ne_eq, Option.some.injEq]
          exact identChar_ne_quote hc
      rw [he, parseScalarString_plain (he ▸ encScalar_strip (Value.vstr s) rfl) hne h0 h1 h2
        hnum hq, strMkData]
    · have he : encScalar (Value.vstr s) = '"' :: (escapeL s.data ++ ['"']) := by
        simp [encScalar, hb]
      have hne : ('"' :: (escapeL s.data ++ ['"'])) ≠ [] := by simp
      have h0 : ('"' :: (escapeL s.data ++ ['"'])) ≠ "null".data := by
        apply ne_list_of_headD (d := ' '); rw [List.headD_cons]; decide
      have h1 : ('"' :: (escapeL s.data ++ ['"'])) ≠ "true".data := by
        apply ne_list_of_headD (d := ' '); rw [List.headD_cons]; decide
      have h2 : ('"' :: (escapeL s.data ++ ['"'])) ≠ "false".data := by
        apply ne_list_of_headD (d := ' '); rw [List.headD_cons]; decide
      have hnum : numTokB ('"' :: (escapeL s.data ++ ['"'])) = false := by
        rw [numTokB_cons_ne (by decide)]
        have hdq : isDigitChar '"' = false := by decide
        simp [digitsNE, List.all_cons, hdq]
      have hq : (('"' :: (escapeL s.data ++ ['"'])).head? == some '"'
          && ('"' :: (escapeL s.data ++ ['"'])).getLast? == some '"') = true := by
        simp only [List.head?_cons, Bool.and_eq_true, beq_iff_eq, true_and]
        rw [show ('"' :: (escapeL s.data ++ ['"'])) = ('"' :: escapeL s.data) ++ ['"'] by simp,
          List.getLast?_concat]
      rw [he, parseScalarString_quoted (he ▸ encScalar_strip (Value.vstr s) rfl) hne h0 h1 h2
        hnum hq]
      have hdq : dropQuotes ('"' :: (escapeL s.data ++ ['"'])) = escapeL s.data := by
        simp only [dropQuotes, List.drop_one, List.tail_cons, List.dropLast_concat]
      rw [hdq, unescape_escape, strMkData]

theorem isScalarB_true_of_no_colon {l : List Char} (hst : stripL l = l) (hne : l ≠ [])
    (hcol : ':' ∉ l) (hdash : ['-', ' '].isPrefixOf l = false) :
    isScalarB l = true := by
  simp only [isScalarB, hst]
  rw [if_neg (by simpa [List.isEmpty_eq_false] using hne)]
  by_cases hq : (l.head? == some '"' && l.getLast? == some '"') = true
  · rw [if_pos hq]
  · rw [if_neg (by simpa using hq)]
    have hreg : (let k := l.takeWhile isIdentChar
        !k.isEmpty && (l.drop k.length).head? == some ':'
          && (l.drop (k.length + 1)).all isPySpace) = false := by
      simp only [Bool.and_eq_false_iff]
      by_cases hc : ((l.drop (l.takeWhile isIdentChar).length).head? == some ':') = true
      · exfalso
        apply hcol
        simp only [beq_iff_eq] at hc
        rcases hd : l.drop (l.takeWhile isIdentChar).length with _ | ⟨c, t⟩
        · rw [hd] at hc; simp at hc
        · rw [hd] at hc
          simp only [List.head?_cons, Option.some.injEq] at hc
          subst hc
          exact List.mem_of_mem_drop (hd ▸ List.mem_cons_self _ _)
      · left
        right
        simpa using hc
    rw [hreg]
    simp only [Bool.false_eq_true, if_false]
    rw [hdash]
    simp

theorem isScalarB_true_of_quoted {l : List Char} (hst : stripL l = l) (hne : l ≠ [])
    (hq : (l.head? == some '"' && l.getLast? == some '"') = true) :
    isScalarB l = true := by
  simp only [isScalarB, hst]
  rw [if_neg (by simpa [List.isEmpty_eq_false] using hne), if_pos hq]

theorem encScalar_token_facts (v : Value) (hs : isScalarValue v = true) :
    identColonB (encScalar v) = false
    ∧ ['-', ' '].isPrefixOf (encScalar v) = false
    ∧ isScalarB (encScalar v) = true := by
  have hstrip := encScalar_strip v hs
  obtain ⟨hne, hhd, hlst, -⟩ := encScalar_sanity v hs
  match v, hs with
  | Value.vnull, _ => exact ⟨by decide, by decide, by decide⟩
  | Value.vbool true, _ => exact ⟨by decide, by decide, by decide⟩
  | Value.vbool false, _ => exact ⟨by decide, by decide, by decide⟩
  | Value.vint n, _ =>
    obtain ⟨hne2, hnl, hcol, -, -⟩ := intDigits_facts n
    have hd := intDigits_head n
    have hdash : ['-', ' '].isPrefixOf (intDigits n) = false := by
      by_cases hn : n < 0
      · have he2 : intDigits n = '-' :: natDigits n.natAbs := by simp [intDigits, hn]
        obtain ⟨hne3, hdig, -⟩ := natDigits_spec n.natAbs
        match hd2 : natDigits n.natAbs, hne3 with
        | c :: r, _ =>
          rw [he2, hd2]
          refine dash_false_of_second ?_
          have := hdig c (by rw [hd2]; exact List.mem_cons_self c r)
          exact (digitChar_cases this).2.2.2.1
      · have he2 : intDigits n = natDigits n.toNat := by simp [intDigits, hn]
        rw [he2]
        obtain ⟨hne3, hdig, -⟩ := natDigits_spec n.toNat
        apply dash_false_of_head
        have := hdig _ (headD_mem hne3 ' ')
        exact (digitChar_cases this).2.2.1
    refine ⟨identColonB_false_of_no_colon hcol, hdash, ?_⟩
    exact isScalarB_true_of_no_colon hstrip hne hcol hdash
  | Value.vstr s, _ =>
    by_cases hb : bareOK s.data = true
    · have he : encScalar (Value.vstr s) = s.data := by simp [encScalar, hb]
      rw [he] at hstrip hne hhd ⊢
      obtain ⟨hident, -⟩ := bareOK_facts hb
      obtain ⟨hne2, hall⟩ := identTok_facts hident
      have hcol : ':' ∉ s.data := fun hm => identChar_ne_colon (hall _ hm) rfl
      have hdash : ['-', ' '].isPrefixOf s.data = false := by
        apply dash_false_of_head
        exact identChar_ne_dash (hall _ (headD_mem hne2 ' '))
      exact ⟨identColonB_false_of_no_colon hcol, hdash,
        isScalarB_true_of_no_colon hstrip hne2 hcol hdash⟩
    · have he : encScalar (Value.vstr s) = '"' :: (escapeL s.data ++ ['"']) := by
        simp [encScalar, hb]
      rw [he] at hstrip hne ⊢
      have hq : (('"' :: (escapeL s.data ++ ['"'])).head? == some '"'
          && ('"' :: (escapeL s.data ++ ['"'])).getLast? == some '"') = true := by
        simp only [List.head?_cons, Bool.and_eq_true, beq_iff_eq, true_and]
        rw [show ('"' :: (escapeL s.data ++ ['"'])) = ('"' :: escapeL s.data) ++ ['"'] by simp,
          List.getLast?_concat]
      refine ⟨?_, by apply dash_false_of_head; rw [List.headD_cons]; decide,
        isScalarB_true_of_quoted hstrip hne hq⟩
      apply identColonB_false_of_head
      rw [List.headD_cons]
      decide

theorem mem_dropWhile_of_not {α : Type} {l : List α} {p : α → Bool} {a : α}
    (h : a ∈ l) (hp : p a = false) : a ∈ l.dropWhile p := by
  have h0 := List.takeWhile_append_dropWhile p l
  rcases List.mem_append.mp (h0 ▸ h) with h2 | h2
  · exact absurd (List.mem_takeWhile_imp h2) (by simp [hp])
  · exact h2

theorem stripL_ne {l : List Char} {c : Char} (hm : c ∈ l) (hc : isPySpace c = false) :
    stripL l ≠ [] := by
  have h1 : c ∈ rstripL l := by
    unfold rstripL
    rw [List.mem_reverse]
    exact mem_dropWhile_of_not (List.mem_reverse.mpr hm) hc
  have h2 : c ∈ stripL l := mem_dropWhile_of_not h1 hc
  exact List.ne_nil_of_mem h2

theorem strip_indent_content {d : Nat} {s : List Char} (hne : s ≠ [])
    (hh : isPySpace (s.headD ' ') = false) :
    lstripL (indentL d ++ s) = s ∧ lineLevel (indentL d ++ s) = d := by
  have h1 : lstripL (indentL d ++ s) = lstripL s := lstripL_replicate_space (2 * d) s
  have h2 : lstripL s = s := by
    match s, hne with
    | c :: t, _ => exact lstripL_cons_nospace (by simpa using hh)
  constructor
  · rw [h1, h2]
  · unfold lineLevel lineIndent
    rw [h1, h2]
    simp only [List.length_append, indentL, List.length_replicate]
    omega

theorem linesAt_cons {lines : List (List Char)} {pos : Nat} {t : List Char}
    {b : List (List Char)} (h : linesAt lines pos (t :: b)) :
    lines.getD pos [] = t ∧ pos < lines.length ∧ linesAt lines (pos + 1) b := by
  obtain ⟨hlen, hi⟩ := h
  simp only [List.length_cons] at hlen
  have h0 : lines.getD pos [] = t := by
    have := hi 0 (by simp)
    simpa using this
  refine ⟨h0, by omega, by omega, ?_⟩
  intro i hilt
  have := hi (i + 1) (by simp; omega)
  rw [show pos + (i + 1) = pos + 1 + i by omega] at this
  rw [this]
  simp [List.getD]

theorem linesAt_append_split {lines : List (List Char)} {pos : Nat}
    {b1 b2 : List (List Char)} (h : linesAt lines pos (b1 ++ b2)) :
    linesAt lines pos b1 ∧ linesAt lines (pos + b1.length) b2 := by
  obtain ⟨hlen, hi⟩ := h
  simp only [List.length_append] at hlen
  constructor
  · refine ⟨by omega, ?_⟩
    intro i hilt
    have := hi i (by simp; omega)
    rw [this, List.getD_append _ _ _ _ (by omega)]
  · refine ⟨by omega, ?_⟩
    intro i hilt
    have := hi (b1.length + i) (by simp; omega)
    rw [show pos + b1.length + i = pos + (b1.length + i) by omega, this,
      List.getD_append_right _ _ _ _ (by omega)]
    simp

theorem skipBlank_id {lines : List (List Char)} {pos : Nat} (hp : pos < lines.length)
    (hnb : stripL (lines.getD pos []) ≠ []) : skipBlank lines pos = pos := by
  unfold skipBlank
  rw [List.drop_eq_getElem_cons hp]
  unfold skipBlankAux
  rw [if_neg]
  simp only [Bool.not_eq_true, List.isEmpty_eq_false]
  rwa [List.getD_eq_getElem lines [] hp] at hnb

theorem hardStop_weak {lines : List (List Char)} {p d : Nat} (h : hardStop lines p d) :
    lines.length ≤ p ∨ lineLevel (lines.getD p []) ≤ d := by
  rcases h with h | h | h
  · exact Or.inl h
  · exact Or.inr (by omega)
  · exact Or.inr (by omega)

theorem hardStop_of_weak {lines : List (List Char)} {p d : Nat}
    (h : lines.length ≤ p ∨ lineLevel (lines.getD p []) ≤ d) :
    hardStop lines p (d + 1) := by
  rcases h with h | h
  · exact Or.inl h
  · exact Or.inr (Or.inl (by omega))

theorem pairFields_eq_none {s : List Char} (h : identColonB s = false) :
    pairFields s = none := by
  unfold pairFields
  rw [if_neg]
  intro hc
  rw [identColonB] at h
  simp only [hc] at h
  cases h

theorem pairFields_key {k : List Char} (r : List Char) (hk : k ≠ [])
    (hall : ∀ c ∈ k, isIdentChar c = true) :
    pairFields (k ++ ':' :: r) = some (k, r) ∧ identColonB (k ++ ':' :: r) = true := by
  obtain ⟨htw, hdr⟩ := takeWhile_all_append (p := isIdentChar) (c := ':') (r := r) hall (by decide)
  have hcond : (!((k ++ ':' :: r).takeWhile isIdentChar).isEmpty
      && ((k ++ ':' :: r).drop ((k ++ ':' :: r).takeWhile isIdentChar).length).head?
        == some ':') = true := by
    rw [htw, hdr]
    simp [hk, List.isEmpty_eq_false]
  constructor
  · unfold pairFields
    rw [if_pos hcond, htw]
    have : (k ++ ':' :: r).drop (k.length + 1) = r := by
      rw [show k ++ ':' :: r = (k ++ [':']) ++ r by simp,
        show k.length + 1 = (k ++ [':']).length by simp]
      exact List.drop_left _ _
    rw [this]
  · unfold identColonB
    rw [htw] at hcond ⊢
    rw [hdr] at hcond
    simp only [hdr]
    exact hcond

theorem strip_space_cons {enc : List Char} (hne : enc ≠ [])
    (hh : isPySpace (enc.headD ' ') = false) (hl : isPySpace (enc.getLastD ' ') = false) :
    stripL (' ' :: enc) = enc := by
  have h1 : rstripL (' ' :: enc) = ' ' :: enc := by
    have hd : ' ' :: enc = (' ' :: enc.dropLast) ++ [enc.getLast hne] := by
      rw [show (' ' :: enc.dropLast) ++ [enc.getLast hne]
          = ' ' :: (enc.dropLast ++ [enc.getLast hne]) by simp,
        List.dropLast_append_getLast hne]
    rw [hd]
    apply rstripL_concat_nospace
    rwa [List.getLastD_eq_getLast?, List.getLast?_eq_getLast enc hne] at hl
  rw [stripL, h1]
  show List.dropWhile isPySpace (' ' :: enc) = enc
  rw [List.dropWhile_cons]
  norm_num [isPySpace]
  match enc, hne with
  | c :: t, _ => exact lstripL_cons_nospace (by simpa using hh)

theorem dash_true (r : List Char) : ['-', ' '].isPrefixOf ('-' :: ' ' :: r) = true := by
  simp [List.isPrefixOf]

theorem pyDictInsert_append {acc : List (String × Value)} {k : String} {v : Value}
    (h : ∀ q ∈ acc, q.1 ≠ k) : pyDictInsert acc k v = acc ++ [(k, v)] := by
  unfold pyDictInsert
  rw [if_neg]
  simp only [List.any_eq_true, not_exists, not_and, Bool.not_eq_true]
  intro q hq
  simp only [beq_eq_false_iff_ne]
  exact h q hq

theorem strictKeys_chain : ∀ ks : List String, strictKeys ks = true →
    List.Chain' (fun a b : String => a.data < b.data) ks
  | [] => by intro h; simp
  | [a] => by intro h; simp
  | a :: b :: r => by
    intro h
    simp only [strictKeys, Bool.and_eq_true, decide_eq_true_eq] at h
    exact List.chain'_cons.mpr ⟨h.1, strictKeys_chain (b :: r) h.2⟩

theorem strictKeys_pairwise {ks : List String} (h : strictKeys ks = true) :
    List.Pairwise (fun a b : String => a.data < b.data) ks :=
  (List.chain'_iff_pairwise).mp (strictKeys_chain ks h)

theorem strictKeys_nodup {ks : List String} (h : strictKeys ks = true) : ks.Nodup := by
  exact (strictKeys_pairwise h).imp
    (fun hab he => absurd (he ▸ hab) (lt_irrefl _))

theorem pairLines_ne_nil (k : String) (v : Value) (d : Nat) : pairLines k v d ≠ [] := by
  unfold pairLines
  split <;> simp

theorem itemLines_ne_nil (v : Value) (d : Nat) : itemLines v d ≠ [] := by
  unfold itemLines
  split <;> simp

theorem serLines_ne_nil (v : Value) (hwf : wfCanon v = true) (d : Nat) :
    serLines v d ≠ [] := by
  match v with
  | Value.vnull => simp [serLines]
  | Value.vbool b => simp [serLines]
  | Value.vint n => simp [serLines]
  | Value.vstr s => simp [serLines]
  | Value.vmap entries =>
    cases entries with
    | nil => simp [wfCanon] at hwf
    | cons e rest =>
      obtain ⟨k, v2⟩ := e
      show pairLines k v2 d ++ serMapLines rest d ≠ []
      simp only [ne_eq, List.append_eq_nil, not_and]
      intro hc
      exact absurd hc (pairLines_ne_nil k v2 d)
  | Value.vseq items =>
    cases items with
    | nil => simp [wfCanon] at hwf
    | cons v2 rest =>
      show itemLines v2 d ++ serSeqLines rest d ≠ []
      simp only [ne_eq, List.append_eq_nil, not_and]
      intro hc
      exact absurd hc (itemLines_ne_nil v2 d)

theorem serLines_vmap (entries : List (String × Value)) (d : Nat) :
    serLines (Value.vmap entries) d = serMapLines entries d := rfl

theorem serLines_vseq (items : List Value) (d : Nat) :
    serLines (Value.vseq items) d = serSeqLines items d := rfl

theorem serMapLines_cons (k : String) (v : Value) (rest : List (String × Value)) (d : Nat) :
    serMapLines ((k, v) :: rest) d = pairLines k v d ++ serMapLines rest d := rfl

theorem serSeqLines_cons (v : Value) (rest : List Value) (d : Nat) :
    serSeqLines (v :: rest) d = itemLines v d ++ serSeqLines rest d := rfl

theorem wfCanon_map {entries : List (String × Value)}
    (h : wfCanon (Value.vmap entries) = true) :
    entries ≠ [] ∧ (∀ p ∈ entries, identTokB p.1.data = true)
      ∧ strictKeys (entries.map Prod.fst) = true ∧ wfEntries entries = true := by
  simp only [wfCanon, Bool.and_eq_true, Bool.not_eq_true', List.isEmpty_eq_false,
    List.all_eq_true] at h
  obtain ⟨⟨⟨hne, hall⟩, hstrict⟩, hwfe⟩ := h
  refine ⟨hne, ?_, hstrict, hwfe⟩
  intro p hp
  exact hall p.1 (List.mem_map.mpr ⟨p, hp, rfl⟩)

theorem wfCanon_seq {items : List Value} (h : wfCanon (Value.vseq items) = true) :
    items ≠ [] ∧ wfItems items = true := by
  simp only [wfCanon, Bool.and_eq_true, Bool.not_eq_true', List.isEmpty_eq_false] at h
  exact h

theorem wfEntries_cons {k : String} {v : Value} {rest : List (String × Value)}
    (h : wfEntries ((k, v) :: rest) = true) : wfCanon v = true ∧ wfEntries rest = true := by
  simp only [wfEntries, Bool.and_eq_true] at h
  exact h

theorem wfItems_cons {v : Value} {rest : List Value}
    (h : wfItems (v :: rest) = true) : wfCanon v = true ∧ wfItems rest = true := by
  simp only [wfItems, Bool.and_eq_true] at h
  exact h

theorem serLines_first (v : Value) (hwf : wfCanon v = true) (d : Nat) :
    ∃ t rest, serLines v d = t :: rest ∧ lineLevel t = d ∧ stripL t ≠ [] := by
  have hscalar : ∀ w : Value, isScalarValue w = true →
      lineLevel (indentL d ++ encScalar w) = d ∧ stripL (indentL d ++ encScalar w) ≠ [] := by
    intro w hs
    obtain ⟨hne, hhd, hlst, -⟩ := encScalar_sanity w hs
    refine ⟨(strip_indent_content hne hhd).2, ?_⟩
    refine stripL_ne (c := (encScalar w).headD ' ') ?_ hhd
    exact List.mem_append_right _ (headD_mem hne ' ')
  match v with
  | Value.vnull =>
    exact ⟨_, [], rfl, (hscalar Value.vnull rfl).1, (hscalar Value.vnull rfl).2⟩
  | Value.vbool b =>
    exact ⟨_, [], rfl, (hscalar (Value.vbool b) rfl).1, (hscalar (Value.vbool b) rfl).2⟩
  | Value.vint n =>
    exact ⟨_, [], rfl, (hscalar (Value.vint n) rfl).1, (hscalar (Value.vint n) rfl).2⟩
  | Value.vstr s =>
    exact ⟨_, [], rfl, (hscalar (Value.vstr s) rfl).1, (hscalar (Value.vstr s) rfl).2⟩
  | Value.vmap entries =>
    obtain ⟨hne, hident, -, -⟩ := wfCanon_map hwf
    match entries, hne with
    | (k, v2) :: rest2, _ =>
      obtain ⟨hkne, hkall⟩ := identTok_facts (hident (k, v2) (List.mem_cons_self _ _))
      have hkh : isPySpace (k.data.headD ' ') = false :=
        identChar_not_space (hkall _ (headD_mem hkne ' '))
      by_cases hs : isScalarValue v2 = true
      · refine ⟨indentL d ++ k.data ++ (':' :: ' ' :: encScalar v2), serMapLines rest2 d,
          ?_, ?_, ?_⟩
        · rw [serLines_vmap, serMapLines_cons, pairLines, if_pos hs]
          rfl
        · rw [List.append_assoc]
          have : (k.data ++ ':' :: ' ' :: encScalar v2).headD ' ' = k.data.headD ' ' := by
            match k.data, hkne with
            | c :: t, _ => rfl
          exact (strip_indent_content (by simp [hkne]) (this ▸ hkh)).2
        · refine stripL_ne (c := ':') ?_ (by decide)
          simp
      · refine ⟨indentL d ++ k.data ++ [':'], serLines v2 (d + 1) ++ serMapLines rest2 d,
          ?_, ?_, ?_⟩
        · rw [serLines_vmap, serMapLines_cons, pairLines, if_neg hs]
          simp
        · rw [List.append_assoc]
          have : (k.data ++ [':']).headD ' ' = k.data.headD ' ' := by
            match k.data, hkne with
            | c :: t, _ => rfl
          exact (strip_indent_content (by simp) (this ▸ hkh)).2
        · refine stripL_ne (c := ':') ?_ (by decide)
          simp
  | Value.vseq items =>
    obtain ⟨hne, -⟩ := wfCanon_seq hwf
    match items, hne with
    | v2 :: rest2, _ =>
      by_cases hs : isScalarValue v2 = true
      · refine ⟨indentL d ++ ('-' :: ' ' :: encScalar v2), serSeqLines rest2 d, ?_, ?_, ?_⟩
        · rw [serLines_vseq, serSeqLines_cons, itemLines, if_pos hs]
          rfl
        · exact (strip_indent_content (by simp) (by rw [List.headD_cons]; decide)).2
        · refine stripL_ne (c := '-') ?_ (by decide)
          simp
      · refine ⟨indentL d ++ ['-', ' '], serLines v2 (d + 1) ++ serSeqLines rest2 d,
          ?_, ?_, ?_⟩
        · rw [serLines_vseq, serSeqLines_cons, itemLines, if_neg hs]
          simp
        · exact (strip_indent_content (by simp) (by rw [List.headD_cons]; decide)).2
        · refine stripL_ne (c := '-') ?_ (by decide)
          simp

theorem headD_append_left {l r : List Char} (h : l ≠ []) (d : Char) :
    (l ++ r).headD d = l.headD d := by
  match l, h with
  | c :: t, _ => rfl

theorem pairLines_first (k : String) (v : Value) (d : Nat) (hk : identTokB k.data = true) :
    ∃ t ts, pairLines k v d = t :: ts ∧ lineLevel t = d ∧ identColonB (lstripL t) = true := by
  obtain ⟨hkne, hkall⟩ := identTok_facts hk
  have hkh : isPySpace (k.data.headD ' ') = false :=
    identChar_not_space (hkall _ (headD_mem hkne ' '))
  by_cases hs : isScalarValue v = true
  · refine ⟨indentL d ++ k.data ++ (':' :: ' ' :: encScalar v), [],
      by rw [pairLines, if_pos hs], ?_, ?_⟩
    · rw [List.append_assoc]
      exact (strip_indent_content (by simp)
        ((headD_append_left hkne ' ').symm ▸ hkh)).2
    · rw [List.append_assoc,
        (strip_indent_content (by simp) ((headD_append_left hkne ' ').symm ▸ hkh)).1]
      exact (pairFields_key (' ' :: encScalar v) hkne hkall).2
  · refine ⟨indentL d ++ k.data ++ [':'], serLines v (d + 1),
      by rw [pairLines, if_neg hs], ?_, ?_⟩
    · rw [List.append_assoc]
      exact (strip_indent_content (by simp)
        ((headD_append_left hkne ' ').symm ▸ hkh)).2
    · rw [List.append_assoc,
        (strip_indent_content (by simp) ((headD_append_left hkne ' ').symm ▸ hkh)).1]
      have : k.data ++ [':'] = k.data ++ ':' :: ([] : List Char) := rfl
      rw [this]
      exact (pairFields_key [] hkne hkall).2

theorem elemRT_scalar (v : Value) (hs : isScalarValue v = true) (lines : List (List Char))
    (d pos fuel : Nat) (hat : linesAt lines pos [indentL d ++ encScalar v])
    (hfuel : 1 ≤ fuel) :
    parseElement lines fuel d pos = some (v, pos + 1) := by
  obtain ⟨hline, hp, -⟩ := linesAt_cons hat
  obtain ⟨f, rfl⟩ : ∃ f, fuel = f + 1 := ⟨fuel - 1, by omega⟩
  obtain ⟨hne, hhd, -, -⟩ := encScalar_sanity v hs
  have hls : lstripL (lines.getD pos []) = encScalar v := by
    rw [hline]; exact (strip_indent_content hne hhd).1
  have hlv : lineLevel (lines.getD pos []) = d := by
    rw [hline]; exact (strip_indent_content hne hhd).2
  obtain ⟨hic, hdash, -⟩ := encScalar_token_facts v hs
  simp only [parseElement, if_pos hp]
  rw [if_neg (fun hc => hc hlv), hls, if_neg (by simp [hic]), if_neg (by simp [hdash]),
    encScalar_parse v hs]

mutual

theorem elemRT (v : Value) (lines : List (List Char)) (d pos fuel : Nat)
    (hwf : wfCanon v = true)
    (hat : linesAt lines pos (serLines v d))
    (hstop : hardStop lines (pos + (serLines v d).length) d)
    (hfuel : 3 * (lines.length - pos) + 3 ≤ fuel) :
    parseElement lines fuel d pos = some (v, pos + (serLines v d).length) := by
  match v with
  | Value.vnull => exact elemRT_scalar Value.vnull rfl lines d pos fuel hat (by omega)
  | Value.vbool b => exact elemRT_scalar (Value.vbool b) rfl lines d pos fuel hat (by omega)
  | Value.vint n => exact elemRT_scalar (Value.vint n) rfl lines d pos fuel hat (by omega)
  | Value.vstr s => exact elemRT_scalar (Value.vstr s) rfl lines d pos fuel hat (by omega)
  | Value.vmap entries =>
    obtain ⟨f, rfl⟩ : ∃ f, fuel = f + 1 := ⟨fuel - 1, by omega⟩
    obtain ⟨hne, hident, hstrict, hwfe⟩ := wfCanon_map hwf
    rw [serLines_vmap] at hat hstop ⊢
    have hmap := mapRT entries lines d pos f [] hident hwfe
      (strictKeys_nodup hstrict) (by intro q hq; cases hq) hat hstop (by omega)
    match entries, hne, hmap with
    | (k, v2) :: rest, _, hmap =>
      obtain ⟨t, ts, hpl, hlvl, hic⟩ :=
        pairLines_first k v2 d (hident (k, v2) (List.mem_cons_self _ _))
      have hat' := hat
      rw [serMapLines_cons, hpl, List.cons_append] at hat'
      obtain ⟨hline, hp, -⟩ := linesAt_cons hat'
      simp only [parseElement, if_pos hp]
      rw [if_neg (fun hc => hc (hline ▸ hlvl)), if_pos (hline ▸ hic), hmap]
      simp
  | Value.vseq items =>
    obtain ⟨f, rfl⟩ : ∃ f, fuel = f + 1 := ⟨fuel - 1, by omega⟩
    obtain ⟨hne, hwfi⟩ := wfCanon_seq hwf
    rw [serLines_vseq] at hat hstop ⊢
    have hseq := seqRT items lines d pos f [] hwfi hat hstop (by omega)
    match items, hne, hseq with
    | v2 :: rest, _, hseq =>
      -- first line facts for dispatch
      have hfirst : ∃ t ts, serSeqLines (v2 :: rest) d = t :: ts ∧ lineLevel t = d
          ∧ lstripL t = '-' :: ' ' :: (if isScalarValue v2 then encScalar v2 else [])
          := by
        by_cases hs : isScalarValue v2 = true
        · refine ⟨indentL d ++ ('-' :: ' ' :: encScalar v2), serSeqLines rest d, ?_, ?_, ?_⟩
          · rw [serSeqLines_cons, itemLines, if_pos hs]; rfl
          · exact (strip_indent_content (by simp) (by rw [List.headD_cons]; decide)).2
          · rw [(strip_indent_content (by simp) (by rw [List.headD_cons]; decide)).1, if_pos hs]
        · refine ⟨indentL d ++ ['-', ' '], serLines v2 (d + 1) ++ serSeqLines rest d, ?_, ?_, ?_⟩
          · rw [serSeqLines_cons, itemLines, if_neg hs]; simp
          · exact (strip_indent_content (by simp) (by rw [List.headD_cons]; decide)).2
          · rw [(strip_indent_content (by simp) (by rw [List.headD_cons]; decide)).1, if_neg hs]
      obtain ⟨t, ts, hser, hlvl, hls⟩ := hfirst
      have hat' := hat
      rw [hser] at hat'
      obtain ⟨hline, hp, -⟩ := linesAt_cons hat'
      have hic : identColonB (lstripL t) = false := by
        apply identColonB_false_of_head
        rw [hls, List.headD_cons]
        decide
      have hdash : ['-', ' '].isPrefixOf (lstripL t) = true := by
        rw [hls]; exact dash_true _
      simp only [parseElement, if_pos hp]
      rw [if_neg (fun hc => hc (hline ▸ hlvl)), if_neg (by rw [hline, hic]; simp),
        if_pos (by rw [hline, hdash]), hseq]
      simp
termination_by (sizeOf v, 0)

theorem mapRT (entries : List (String × Value)) (lines : List (List Char))
    (d pos fuel : Nat) (acc : List (String × Value))
    (hident : ∀ p ∈ entries, identTokB p.1.data = true)
    (hwfe : wfEntries entries = true)
    (hnd : (entries.map Prod.fst).Nodup)
    (hdisj : ∀ q ∈ acc, ∀ p ∈ entries, q.1 ≠ p.1)
    (hat : linesAt lines pos (serMapLines entries d))
    (hstop : hardStop lines (pos + (serMapLines entries d).length) d)
    (hfuel : 3 * (lines.length - pos) + 2 ≤ fuel) :
    parseMapping lines fuel d pos acc
      = some (acc ++ entries, pos + (serMapLines entries d).length) := by
  obtain ⟨f, rfl⟩ : ∃ f, fuel = f + 1 := ⟨fuel - 1, by omega⟩
  match entries with
  | [] =>
    simp only [serMapLines, List.length_nil, Nat.add_zero, List.append_nil] at hstop ⊢
    by_cases hp : pos < lines.length
    · rcases hstop with hstop | hstop | hstop
      · omega
      · simp only [parseMapping, if_pos hp]
        rw [if_pos hstop]
      · obtain ⟨hlvl, hic, -⟩ := hstop
        obtain ⟨f2, rfl⟩ : ∃ f2, f = f2 + 1 := ⟨f - 1, by omega⟩
        have hpair : parsePair lines (f2 + 1) d pos = some (none, pos) := by
          simp only [parsePair, if_pos hp]
          rw [if_neg (fun hc => hc hlvl), pairFields_eq_none hic]
        simp only [parseMapping, if_pos hp]
        rw [if_neg (by omega), if_neg (fun hc => hc hlvl), hpair]
    · simp only [parseMapping, if_neg hp]
  | (k, v2) :: rest =>
    rw [serMapLines_cons] at hat hstop ⊢
    obtain ⟨hat1, hat2⟩ := linesAt_append_split hat
    have hk := hident (k, v2) (List.mem_cons_self _ _)
    obtain ⟨hv2wf, hwfe2⟩ := wfEntries_cons hwfe
    obtain ⟨t, ts, hpl, hlvl, hic⟩ := pairLines_first k v2 d hk
    have hat1' := hat1
    rw [hpl] at hat1'
    obtain ⟨hline, hp, -⟩ := linesAt_cons hat1'
    have hplpos : 1 ≤ (pairLines k v2 d).length := by
      rcases hpl2 : pairLines k v2 d with _ | ⟨a, b⟩
      · exact absurd hpl2 (pairLines_ne_nil k v2 d)
      · simp
    have hweak : lines.length ≤ pos + (pairLines k v2 d).length
        ∨ lineLevel (lines.getD (pos + (pairLines k v2 d).length) []) ≤ d := by
      match rest with
      | [] =>
        apply hardStop_weak
        simp only [serMapLines, List.append_nil] at hstop
        exact hstop
      | (k2, v22) :: rest2 =>
        right
        rw [serMapLines_cons] at hat2
        obtain ⟨hat21, -⟩ := linesAt_append_split hat2
        obtain ⟨t2, ts2, hpl2, hlvl2, -⟩ :=
          pairLines_first k2 v22 d (hident (k2, v22)
            (List.mem_cons_of_mem _ (List.mem_cons_self _ _)))
        rw [hpl2] at hat21
        obtain ⟨hline2, -, -⟩ := linesAt_cons hat21
        rw [hline2, hlvl2]
    have hpair := pairRT v2 k lines d pos f hv2wf hk hat1 hweak (by omega)
    have hkacc : pyDictInsert acc k v2 = acc ++ [(k, v2)] :=
      pyDictInsert_append (fun q hq => hdisj q hq (k, v2) (List.mem_cons_self _ _))
    have hnd2 : (rest.map Prod.fst).Nodup := (List.nodup_cons.mp hnd).2
    have hknotin : k ∉ rest.map Prod.fst := (List.nodup_cons.mp hnd).1
    have hdisj2 : ∀ q ∈ acc ++ [(k, v2)], ∀ p ∈ rest, q.1 ≠ p.1 := by
      intro q hq p hpr
      rcases List.mem_append.mp hq with hq | hq
      · exact hdisj q hq p (List.mem_cons_of_mem _ hpr)
      · rw [List.mem_singleton.mp hq]
        intro hc
        exact hknotin (List.mem_map.mpr ⟨p, hpr, hc.symm⟩)
    have hstop2 : hardStop lines
        (pos + (pairLines k v2 d).length + (serMapLines rest d).length) d := by
      have : pos + (pairLines k v2 d).length + (serMapLines rest d).length
          = pos + (pairLines k v2 d ++ serMapLines rest d).length := by
        simp [List.length_append]; omega
      rw [this]
      exact hstop
    have hrec := mapRT rest lines d (pos + (pairLines k v2 d).length) f (acc ++ [(k, v2)])
      (fun p hp2 => hident p (List.mem_cons_of_mem _ hp2)) hwfe2 hnd2 hdisj2 hat2 hstop2
      (by omega)
    simp only [parseMapping, if_pos hp]
    rw [if_neg (by rw [hline]; omega), if_neg (fun hc => hc (hline ▸ hlvl)), hpair]
    show parseMapping lines f d (pos + (pairLines k v2 d).length) (pyDictInsert acc k v2)
      = some (acc ++ (k, v2) :: rest, pos + (pairLines k v2 d ++ serMapLines rest d).length)
    rw [hkacc, hrec]
    have h1 : (acc ++ [(k, v2)]) ++ rest = acc ++ (k, v2) :: rest := by simp
    have h2 : pos + (pairLines k v2 d).length + (serMapLines rest d).length
        = pos + (pairLines k v2 d ++ serMapLines rest d).length := by
      simp [List.length_append]; omega
    rw [h1, h2]
termination_by (sizeOf entries, 1)

theorem pairRT (v : Value) (k : String) (lines : List (List Char)) (d pos fuel : Nat)
    (hwf : wfCanon v = true) (hk : identTokB k.data = true)
    (hat : linesAt lines pos (pairLines k v d))
    (hweak : lines.length ≤ pos + (pairLines k v d).length
      ∨ lineLevel (lines.getD (pos + (pairLines k v d).length) []) ≤ d)
    (hfuel : 3 * (lines.length - pos) + 1 ≤ fuel) :
    parsePair lines fuel d pos = some (some (k, v), pos + (pairLines k v d).length) := by
  obtain ⟨f, rfl⟩ : ∃ f, fuel = f + 1 := ⟨fuel - 1, by omega⟩
  obtain ⟨hkne, hkall⟩ := identTok_facts hk
  have hkh : isPySpace (k.data.headD ' ') = false :=
    identChar_not_space (hkall _ (headD_mem hkne ' '))
  by_cases hs : isScalarValue v = true
  · have hpl : pairLines k v d = [indentL d ++ k.data ++ (':' :: ' ' :: encScalar v)] := by
      rw [pairLines, if_pos hs]
    rw [hpl] at hat ⊢
    obtain ⟨hline, hp, -⟩ := linesAt_cons hat
    obtain ⟨hene, hehd, helst, -⟩ := encScalar_sanity v hs
    have hsic := strip_indent_content (d := d) (s := k.data ++ ':' :: ' ' :: encScalar v)
      (by simp) ((headD_append_left hkne ' ').symm ▸ hkh)
    have hstrip : lstripL (lines.getD pos []) = k.data ++ ':' :: ' ' :: encScalar v := by
      rw [hline, List.append_assoc]; exact hsic.1
    have hlvl : lineLevel (lines.getD pos []) = d := by
      rw [hline, List.append_assoc]; exact hsic.2
    have hpf := (pairFields_key (' ' :: encScalar v) hkne hkall).1
    have hvs : stripL (' ' :: encScalar v) = encScalar v := strip_space_cons hene hehd helst
    obtain ⟨-, -, hisc⟩ := encScalar_token_facts v hs
    simp only [parsePair, if_pos hp]
    rw [if_neg (fun hc => hc hlvl), hstrip, hpf]
    simp only [hvs]
    rw [if_pos (by simp [List.isEmpty_eq_false, hene, hisc]), encScalar_parse v hs]
    simp [strMkData]
  · have hpl : pairLines k v d = (indentL d ++ k.data ++ [':']) :: serLines v (d + 1) := by
      rw [pairLines, if_neg hs]
    rw [hpl] at hat hweak ⊢
    obtain ⟨hline, hp, hat2⟩ := linesAt_cons hat
    have hsic := strip_indent_content (d := d) (s := k.data ++ [':'])
      (by simp) ((headD_append_left hkne ' ').symm ▸ hkh)
    have hstrip : lstripL (lines.getD pos []) = k.data ++ [':'] := by
      rw [hline, List.append_assoc]; exact hsic.1
    have hlvl : lineLevel (lines.getD pos []) = d := by
      rw [hline, List.append_assoc]; exact hsic.2
    have hpf : pairFields (k.data ++ [':']) = some (k.data, []) := by
      have : k.data ++ [':'] = k.data ++ ':' :: ([] : List Char) := rfl
      rw [this]
      exact (pairFields_key [] hkne hkall).1
    have hserne : serLines v (d + 1) ≠ [] := serLines_ne_nil v hwf (d + 1)
    have hlen1 : 1 ≤ (serLines v (d + 1)).length := by
      rcases hd : serLines v (d + 1) with _ | ⟨a, b⟩
      · exact absurd hd hserne
      · simp
    have hp1 : pos + 1 < lines.length := by
      obtain ⟨hlen, -⟩ := hat2
      omega
    obtain ⟨t2, ts2, hser2, hlvl2, hstr2⟩ := serLines_first v hwf (d + 1)
    have hat2' := hat2
    rw [hser2] at hat2'
    obtain ⟨hline2, -, -⟩ := linesAt_cons hat2'
    have hskip : skipBlank lines (pos + 1) = pos + 1 :=
      skipBlank_id hp1 (by rw [hline2]; exact hstr2)
    have hstop2 : hardStop lines (pos + 1 + (serLines v (d + 1)).length) (d + 1) := by
      apply hardStop_of_weak
      have heq : pos + 1 + (serLines v (d + 1)).length
          = pos + ((serLines v (d + 1)).length + 1) := by omega
      rw [heq]
      simpa using hweak
    have helem := elemRT v lines (d + 1) (pos + 1) f hwf hat2 hstop2 (by omega)
    simp only [parsePair, if_pos hp]
    rw [if_neg (fun hc => hc hlvl), hstrip, hpf]
    have hvs : stripL ([] : List Char) = [] := rfl
    simp only [hvs]
    rw [if_neg (by simp), if_pos hp1, hskip]
    rw [if_pos hp1]
    rw [if_pos (by rw [hline2]; exact hlvl2), helem]
    have : pos + 1 + (serLines v (d + 1)).length = pos + ((serLines v (d + 1)).length + 1) := by
      omega
    rw [this]
    simp [strMkData]
termination_by (sizeOf v, 2)

theorem seqRT (items : List Value) (lines : List (List Char)) (d pos fuel : Nat)
    (acc : List Value)
    (hwfi : wfItems items = true)
    (hat : linesAt lines pos (serSeqLines items d))
    (hstop : hardStop lines (pos + (serSeqLines items d).length) d)
    (hfuel : 3 * (lines.length - pos) + 2 ≤ fuel) :
    parseList lines fuel d pos acc
      = some (acc ++ items, pos + (serSeqLines items d).length) := by
  obtain ⟨f, rfl⟩ : ∃ f, fuel = f + 1 := ⟨fuel - 1, by omega⟩
  match items with
  | [] =>
    simp only [serSeqLines, List.length_nil, Nat.add_zero, List.append_nil] at hstop ⊢
    by_cases hp : pos < lines.length
    · rcases hstop with hstop | hstop | hstop
      · omega
      · simp only [parseList, if_pos hp]
        rw [if_pos hstop]
      · obtain ⟨hlvl, -, hdash⟩ := hstop
        simp only [parseList, if_pos hp]
        rw [if_neg (by omega), if_neg (fun hc => hc hlvl), hdash]
        simp
    · simp only [parseList, if_neg hp]
  | v2 :: rest =>
    rw [serSeqLines_cons] at hat hstop ⊢
    obtain ⟨hat1, hat2⟩ := linesAt_append_split hat
    obtain ⟨hv2wf, hwfi2⟩ := wfItems_cons hwfi
    have hstop2 : hardStop lines
        (pos + (itemLines v2 d).length + (serSeqLines rest d).length) d := by
      have : pos + (itemLines v2 d).length + (serSeqLines rest d).length
          = pos + (itemLines v2 d ++ serSeqLines rest d).length := by
        simp [List.length_append]; omega
      rw [this]
      exact hstop
    have hfinal : ∀ p', p' = pos + (itemLines v2 d).length →
        3 * (lines.length - p') + 2 ≤ f →
        parseList lines f d p' (acc ++ [v2])
          = some ((acc ++ [v2]) ++ rest, p' + (serSeqLines rest d).length) := by
      intro p' hp' hf'
      subst hp'
      exact seqRT rest lines d _ f (acc ++ [v2])
        hwfi2 hat2 hstop2 hf'
    by_cases hs : isScalarValue v2 = true
    · have hil : itemLines v2 d = [indentL d ++ ('-' :: ' ' :: encScalar v2)] := by
        rw [itemLines, if_pos hs]
      rw [hil] at hat1 hfinal
      obtain ⟨hline, hp, -⟩ := linesAt_cons hat1
      obtain ⟨hene, hehd, -, -⟩ := encScalar_sanity v2 hs
      have hsic := strip_indent_content (d := d) (s := '-' :: ' ' :: encScalar v2)
        (by simp) (by rw [List.headD_cons]; decide)
      have hstrip : lstripL (lines.getD pos []) = '-' :: ' ' :: encScalar v2 := by
        rw [hline]; exact hsic.1
      have hlvl : lineLevel (lines.getD pos []) = d := by
        rw [hline]; exact hsic.2
      have hvs : lstripL (('-' :: ' ' :: encScalar v2).drop 2) = encScalar v2 := by
        simp only [List.drop_succ_cons, List.drop_zero]
        rcases henc : encScalar v2 with _ | ⟨c, t⟩
        · rfl
        · rw [henc] at hehd
          simp only [List.headD_cons] at hehd
          exact lstripL_cons_nospace hehd
      obtain ⟨-, -, hisc⟩ := encScalar_token_facts v2 hs
      have hrec := hfinal (pos + 1) (by simp) (by omega)
      simp only [parseList, if_pos hp]
      rw [if_neg (by rw [hlvl]; omega), if_neg (fun hc => hc hlvl), hstrip]
      rw [if_pos (dash_true _)]
      simp only [hvs]
      rw [if_pos (by simp [List.isEmpty_eq_false, hene, hisc]), encScalar_parse v2 hs, hrec]
      have hval : acc ++ [v2] ++ rest = acc ++ v2 :: rest := by simp
      have hposq : pos + 1 + (serSeqLines rest d).length
          = pos + (itemLines v2 d ++ serSeqLines rest d).length := by
        simp [hil, List.length_append]
        omega
      rw [hval, hposq]
    · have hil : itemLines v2 d = (indentL d ++ ['-', ' ']) :: serLines v2 (d + 1) := by
        rw [itemLines, if_neg hs]
      rw [hil] at hat1 hfinal
      obtain ⟨hline, hp, hat12⟩ := linesAt_cons hat1
      have hsic := strip_indent_content (d := d) (s := ['-', ' '])
        (by simp) (by rw [List.headD_cons]; decide)
      have hstrip : lstripL (lines.getD pos []) = ['-', ' '] := by
        rw [hline]; exact hsic.1
      have hlvl : lineLevel (lines.getD pos []) = d := by
        rw [hline]; exact hsic.2
      have hserne : serLines v2 (d + 1) ≠ [] := serLines_ne_nil v2 hv2wf (d + 1)
      have hlen1 : 1 ≤ (serLines v2 (d + 1)).length := by
        rcases hd2 : serLines v2 (d + 1) with _ | ⟨a, b⟩
        · exact absurd hd2 hserne
        · simp
      have hp1 : pos + 1 < lines.length := by
        obtain ⟨hlen, -⟩ := hat12
        omega
      obtain ⟨t2, ts2, hser2, hlvl2, -⟩ := serLines_first v2 hv2wf (d + 1)
      have hat12' := hat12
      rw [hser2] at hat12'
      obtain ⟨hline2, -, -⟩ := linesAt_cons hat12'
      have hnstop : hardStop lines (pos + 1 + (serLines v2 (d + 1)).length) (d + 1) := by
        apply hardStop_of_weak
        have heq : pos + 1 + (serLines v2 (d + 1)).length
            = pos + ((serLines v2 (d + 1)).length + 1) := by omega
        rw [heq]
        match rest with
        | [] =>
          have hw := hardStop_weak hstop2
          simp only [serSeqLines, List.length_nil, Nat.add_zero, hil] at hw
          simpa using hw
        | v3 :: rest3 =>
          right
          rw [serSeqLines_cons] at hat2
          obtain ⟨hat21, -⟩ := linesAt_append_split hat2
          have hfirst3 : ∃ t3 ts3, itemLines v3 d = t3 :: ts3 ∧ lineLevel t3 = d := by
            by_cases hs3 : isScalarValue v3 = true
            · exact ⟨_, _, by rw [itemLines, if_pos hs3],
                (strip_indent_content (by simp) (by rw [List.headD_cons]; decide)).2⟩
            · exact ⟨_, _, by rw [itemLines, if_neg hs3],
                (strip_indent_content (by simp) (by rw [List.headD_cons]; decide)).2⟩
          obtain ⟨t3, ts3, hil3, hlvl3⟩ := hfirst3
          rw [hil3] at hat21
          obtain ⟨hline3, -, -⟩ := linesAt_cons hat21
          have hpos3 : pos + ((serLines v2 (d + 1)).length + 1)
              = pos + ((indentL d ++ ['-', ' ']) :: serLines v2 (d + 1)).length := by
            simp only [List.length_cons]
          rw [hpos3, ← hil]
          rw [hline3, hlvl3]
      have helem := elemRT v2 lines (d + 1) (pos + 1) f hv2wf hat12 hnstop (by omega)
      have hrec := hfinal (pos + 1 + (serLines v2 (d + 1)).length)
        (by simp only [List.length_cons]; omega) (by omega)
      simp only [parseList, if_pos hp]
      rw [if_neg (by rw [hlvl]; omega), if_neg (fun hc => hc hlvl), hstrip]
      rw [if_pos (dash_true _)]
      have hvs : lstripL ((['-', ' '] : List Char).drop 2) = [] := rfl
      simp only [hvs]
      rw [if_neg (by simp), if_pos hp1]
      rw [if_pos (by rw [hline2]; exact hlvl2), helem]
      show parseList lines f d (pos + 1 + (serLines v2 (d + 1)).length) (acc ++ [v2])
        = some (acc ++ v2 :: rest, pos + (itemLines v2 d ++ serSeqLines rest d).length)
      rw [hrec]
      have hval : acc ++ [v2] ++ rest = acc ++ v2 :: rest := by simp
      have hposq : pos + 1 + (serLines v2 (d + 1)).length + (serSeqLines rest d).length
          = pos + (itemLines v2 d ++ serSeqLines rest d).length := by
        simp only [hil, List.length_append, List.length_cons]
        omega
      rw [hval, hposq]
termination_by (sizeOf items, 1)

end

/-!
Canonical fixed points: well-formed canonical trees are unchanged by
the key-ordering stage, the serializer emits newline-free non-blank
lines for them, and the constructor's line split recovers exactly the
emitted lines, so the parser run of the round trip starts from the
serializer's own line list.
-/

theorem identTokB_ne_human {k : String} (h : identTokB k.data = true) :
    (k == "$human$") = false := by
  by_cases he : k = "$human$"
  · subst he
    exact absurd h (by decide)
  · exact beq_eq_false_iff_ne.mpr he

theorem strictKeys_sorted {entries : List (String × Value)}
    (h : strictKeys (entries.map Prod.fst) = true) :
    List.Sorted (fun a b : String × Value => a.1.data ≤ b.1.data) entries := by
  have hp := strictKeys_pairwise h
  rw [List.pairwise_map] at hp
  exact hp.imp (fun hab => le_of_lt hab)

theorem orderKeys_id {entries : List (String × Value)}
    (hident : ∀ p ∈ entries, identTokB p.1.data = true)
    (hsorted : List.Sorted (fun a b : String × Value => a.1.data ≤ b.1.data) entries) :
    orderKeys entries = entries := by
  have h1 : entries.filter (fun p => p.1 == "$human$") = [] := by
    rw [List.filter_eq_nil_iff]
    intro p hp
    rw [identTokB_ne_human (hident p hp)]
    simp
  have h2 : entries.filter (fun p => !(p.1 == "$human$")) = entries := by
    rw [List.filter_eq_self]
    intro p hp
    rw [identTokB_ne_human (hident p hp)]
    rfl
  rw [orderKeys, h1, h2, List.nil_append]
  exact List.Sorted.insertionSort_eq hsorted

mutual

theorem canonValue_id (v : Value) (hwf : wfCanon v = true) : canonValue v = v := by
  match v with
  | Value.vnull => rfl
  | Value.vbool b => rfl
  | Value.vint n => rfl
  | Value.vstr s => rfl
  | Value.vmap entries =>
    obtain ⟨-, hident, hstrict, hwfe⟩ := wfCanon_map hwf
    show Value.vmap (orderKeys (canonEntries entries)) = Value.vmap entries
    rw [canonEntries_id entries hwfe, orderKeys_id hident (strictKeys_sorted hstrict)]
  | Value.vseq items =>
    obtain ⟨-, hwfi⟩ := wfCanon_seq hwf
    show Value.vseq (canonItems items) = Value.vseq items
    rw [canonItems_id items hwfi]
termination_by sizeOf v

theorem canonEntries_id (entries : List (String × Value))
    (hwfe : wfEntries entries = true) : canonEntries entries = entries := by
  match entries with
  | [] => rfl
  | (k, v) :: rest =>
    obtain ⟨hv, hrest⟩ := wfEntries_cons hwfe
    show (k, canonValue v) :: canonEntries rest = (k, v) :: rest
    rw [canonValue_id v hv, canonEntries_id rest hrest]
termination_by sizeOf entries

theorem canonItems_id (items : List Value) (hwfi : wfItems items = true) :
    canonItems items = items := by
  match items with
  | [] => rfl
  | v :: rest =>
    obtain ⟨hv, hrest⟩ := wfItems_cons hwfi
    show canonValue v :: canonItems rest = v :: rest
    rw [canonValue_id v hv, canonItems_id rest hrest]
termination_by sizeOf items

end

theorem indentL_no_nl (d : Nat) : '\n' ∉ indentL d := by
  intro hm
  exact absurd (List.eq_of_mem_replicate hm) (by decide)

theorem scalarLineOK {d : Nat} {w : Value} (hs : isScalarValue w = true) :
    '\n' ∉ indentL d ++ encScalar w ∧ stripL (indentL d ++ encScalar w) ≠ [] := by
  obtain ⟨hne, hhd, -, hnl⟩ := encScalar_sanity w hs
  constructor
  · intro hm
    rcases List.mem_append.mp hm with hm | hm
    · exact indentL_no_nl d hm
    · exact hnl hm
  · have hmem : (encScalar w).headD ' ' ∈ indentL d ++ encScalar w :=
      List.mem_append_right _ (headD_mem hne ' ')
    exact stripL_ne hmem hhd

theorem keyLineOK {d : Nat} {k : String} (hk : identTokB k.data = true) {tail : List Char}
    (hnltail : '\n' ∉ tail) :
    '\n' ∉ indentL d ++ k.data ++ (':' :: tail)
      ∧ stripL (indentL d ++ k.data ++ (':' :: tail)) ≠ [] := by
  obtain ⟨-, hall⟩ := identTok_facts hk
  constructor
  · intro hm
    rcases List.mem_append.mp hm with hm | hm
    · rcases List.mem_append.mp hm with hm | hm
      · exact indentL_no_nl d hm
      · exact identChar_ne_nl (hall _ hm) rfl
    · rcases List.mem_cons.mp hm with hm | hm
      · exact absurd hm (by decide)
      · exact hnltail hm
  · have hmem : ':' ∈ indentL d ++ k.data ++ (':' :: tail) :=
      List.mem_append_right _ (List.mem_cons_self _ _)
    exact stripL_ne hmem (by decide)

theorem dashLineOK {d : Nat} {tail : List Char} (hnltail : '\n' ∉ tail) :
    '\n' ∉ indentL d ++ ('-' :: tail) ∧ stripL (indentL d ++ ('-' :: tail)) ≠ [] := by
  constructor
  · intro hm
    rcases List.mem_append.mp hm with hm | hm
    · exact indentL_no_nl d hm
    · rcases List.mem_cons.mp hm with hm | hm
      · exact absurd hm (by decide)
      · exact hnltail hm
  · have hmem : '-' ∈ indentL d ++ ('-' :: tail) :=
      List.mem_append_right _ (List.mem_cons_self _ _)
    exact stripL_ne hmem (by decide)

mutual

theorem serLinesOK (v : Value) (d : Nat) (hwf : wfCanon v = true) :
    ∀ l ∈ serLines v d, '\n' ∉ l ∧ stripL l ≠ [] := by
  match v with
  | Value.vnull =>
    intro l hl
    have hl2 : l ∈ [indentL d ++ encScalar Value.vnull] := hl
    rw [List.mem_singleton.mp hl2]
    exact scalarLineOK rfl
  | Value.vbool b =>
    intro l hl
    have hl2 : l ∈ [indentL d ++ encScalar (Value.vbool b)] := hl
    rw [List.mem_singleton.mp hl2]
    exact scalarLineOK rfl
  | Value.vint n =>
    intro l hl
    have hl2 : l ∈ [indentL d ++ encScalar (Value.vint n)] := hl
    rw [List.mem_singleton.mp hl2]
    exact scalarLineOK rfl
  | Value.vstr s =>
    intro l hl
    have hl2 : l ∈ [indentL d ++ encScalar (Value.vstr s)] := hl
    rw [List.mem_singleton.mp hl2]
    exact scalarLineOK rfl
  | Value.vmap entries =>
    obtain ⟨-, hident, -, hwfe⟩ := wfCanon_map hwf
    exact serMapLinesOK entries d hident hwfe
  | Value.vseq items =>
    obtain ⟨-, hwfi⟩ := wfCanon_seq hwf
    exact serSeqLinesOK items d hwfi
termination_by sizeOf v

theorem serMapLinesOK (entries : List (String × Value)) (d : Nat)
    (hident : ∀ p ∈ entries, identTokB p.1.data = true)
    (hwfe : wfEntries entries = true) :
    ∀ l ∈ serMapLines entries d, '\n' ∉ l ∧ stripL l ≠ [] := by
  match entries with
  | [] =>
    intro l hl
    exact absurd hl (List.not_mem_nil l)
  | (k, v2) :: rest =>
    intro l hl
    obtain ⟨hv2, hrest⟩ := wfEntries_cons hwfe
    have hk := hident (k, v2) (List.mem_cons_self _ _)
    have hl2 : l ∈ pairLines k v2 d ++ serMapLines rest d := hl
    rcases List.mem_append.mp hl2 with hm | hm
    · unfold pairLines at hm
      by_cases hs : isScalarValue v2 = true
      · rw [if_pos hs] at hm
        rw [List.mem_singleton.mp hm]
        have hnl2 : '\n' ∉ ' ' :: encScalar v2 := by
          intro hx
          rcases List.mem_cons.mp hx with hx | hx
          · exact absurd hx (by decide)
          · exact (encScalar_sanity v2 hs).2.2.2 hx
        exact keyLineOK hk hnl2
      · rw [if_neg hs] at hm
        rcases List.mem_cons.mp hm with hm | hm
        · rw [hm]
          exact keyLineOK hk (List.not_mem_nil '\n')
        · exact serLinesOK v2 (d + 1) hv2 l hm
    · exact serMapLinesOK rest d
        (fun p hp => hident p (List.mem_cons_of_mem _ hp)) hrest l hm
termination_by sizeOf entries

theorem serSeqLinesOK (items : List Value) (d : Nat) (hwfi : wfItems items = true) :
    ∀ l ∈ serSeqLines items d, '\n' ∉ l ∧ stripL l ≠ [] := by
  match items with
  | [] =>
    intro l hl
    exact absurd hl (List.not_mem_nil l)
  | v2 :: rest =>
    intro l hl
    obtain ⟨hv2, hrest⟩ := wfItems_cons hwfi
    have hl2 : l ∈ itemLines v2 d ++ serSeqLines rest d := hl
    rcases List.mem_append.mp hl2 with hm | hm
    · unfold itemLines at hm
      by_cases hs : isScalarValue v2 = true
      · rw [if_pos hs] at hm
        rw [List.mem_singleton.mp hm]
        have hnl2 : '\n' ∉ ' ' :: encScalar v2 := by
          intro hx
          rcases List.mem_cons.mp hx with hx | hx
          · exact absurd hx (by decide)
          · exact (encScalar_sanity v2 hs).2.2.2 hx
        exact dashLineOK hnl2
      · rw [if_neg hs] at hm
        rcases List.mem_cons.mp hm with hm | hm
        · rw [hm]
          exact dashLineOK (by decide)
        · exact serLinesOK v2 (d + 1) hv2 l hm
    · exact serSeqLinesOK rest d hrest l hm
termination_by sizeOf items

end

theorem splitOn_block (L : List (List Char)) (hnl : ∀ l ∈ L, '\n' ∉ l) :
    (L.flatMap (fun l => l ++ ['\n'])).splitOn '\n' = L ++ [[]] := by
  induction L with
  | nil => simp [List.splitOn]
  | cons a L ih =>
    have ha := hnl a (List.mem_cons_self _ _)
    have hL : ∀ l ∈ L, '\n' ∉ l := fun l hl => hnl l (List.mem_cons_of_mem _ hl)
    have hflat : (a :: L).flatMap (fun l => l ++ ['\n'])
        = a ++ '\n' :: L.flatMap (fun l => l ++ ['\n']) := by
      rw [List.flatMap_cons]
      simp
    rw [hflat]
    have hstep : (a ++ '\n' :: L.flatMap (fun l => l ++ ['\n'])).splitOn '\n'
        = a :: (L.flatMap (fun l => l ++ ['\n'])).splitOn '\n' := by
      simp only [List.splitOn]
      have h1 : ∀ x ∈ a, ¬((x == '\n') = true) := by
        intro x hx
        simp only [beq_iff_eq]
        intro he
        exact ha (he ▸ hx)
      exact List.splitOnP_first _ _ h1 '\n' (by simp) _
    rw [hstep, ih hL]
    rfl

theorem pyLinesOf_toDeterministicYaml (v : Value) (hwf : wfCanon v = true) :
    pyLinesOf (toDeterministicYaml v) = serLines v 0 ++ [[]] := by
  have hOK := serLinesOK v 0 hwf
  have hdata : (toDeterministicYaml v).data
      = (serLines v 0).flatMap (fun l => l ++ ['\n']) := by
    simp only [toDeterministicYaml, canonValue_id v hwf]
  unfold pyLinesOf
  rw [hdata, splitOn_block _ (fun l hl => (hOK l hl).1)]
  rw [List.filter_eq_self]
  intro l hl
  rcases List.mem_append.mp hl with hm | hm
  · have h2 := (hOK l hm).2
    have h3 : (stripL l).isEmpty = false := by
      rw [List.isEmpty_eq_false]
      exact h2
    simp [h3]
  · rw [List.mem_singleton.mp hm]
    decide

theorem parse_toDeterministicYaml (v : Value) (hwf : wfCanon v = true) :
    parseRestrictedYaml (toDeterministicYaml v) = some v := by
  have hlines := pyLinesOf_toDeterministicYaml v hwf
  obtain ⟨t, rest, hser, hlvl, hstrip⟩ := serLines_first v hwf 0
  have hat : linesAt (serLines v 0 ++ [[]]) 0 (serLines v 0) := by
    constructor
    · simp
    · intro i hi
      rw [Nat.zero_add, List.getD_append _ _ [] i hi]
  have hstop : hardStop (serLines v 0 ++ [[]]) (0 + (serLines v 0).length) 0 := by
    right; right
    have hg : (serLines v 0 ++ [[]]).getD (0 + (serLines v 0).length) [] = [] := by
      rw [Nat.zero_add, List.getD_append_right _ _ [] _ (le_refl _), Nat.sub_self]
      rfl
    rw [hg]
    exact ⟨by decide, by decide, by decide⟩
  have helem := elemRT v (serLines v 0 ++ [[]]) 0 0
    (parseFuel (serLines v 0 ++ [[]])) hwf hat hstop (by simp [parseFuel])
  have hsb : skipBlank (serLines v 0 ++ [[]]) 0 = 0 := by
    have hg0 : (serLines v 0 ++ [[]]).getD 0 [] = t := by
      rw [hser]
      rfl
    exact skipBlank_id (by simp) (by rw [hg0]; exact hstrip)
  simp only [parseRestrictedYaml]
  rw [hlines]
  have hlen : 0 < (serLines v 0 ++ [[]]).length := by simp
  rw [if_neg (by simp), hsb, if_pos hlen, helem]

/-- C1 (amended): on the trees the serializer itself produces —
identifier-pattern keys in strictly ascending code-point order (which
excludes the reserved annotation key) and non-empty containers —
parsing the serializer output reproduces the tree exactly:
parse(serialize(v)) = v with no lossy step.  The reserved-key
counterexample shows the unrestricted claim is false. -/
theorem roundtrip_parse_serialize (v : Value) (hwf : wfCanon v = true) :
    parseRestrictedYaml (toDeterministicYaml v) = some v :=
  parse_toDeterministicYaml v hwf

theorem roundtrip_parse_serialize_witness :
    wfCanon (Value.vmap [("a", Value.vint 1),
        ("b", Value.vseq [Value.vint 2, Value.vstr "x y"]),
        ("c", Value.vmap [("d", Value.vnull)])]) = true
    ∧ parseRestrictedYaml (toDeterministicYaml (Value.vmap [("a", Value.vint 1),
        ("b", Value.vseq [Value.vint 2, Value.vstr "x y"]),
        ("c", Value.vmap [("d", Value.vnull)])]))
      = some (Value.vmap [("a", Value.vint 1),
        ("b", Value.vseq [Value.vint 2, Value.vstr "x y"]),
        ("c", Value.vmap [("d", Value.vnull)])]) :=
  ⟨by decide, roundtrip_parse_serialize _ (by decide)⟩

/-- C2 (amended): serialize after parse is the identity on the
canonical texts that the serializer produces from its own
well-formed trees; the reserved-key document is canonical text on
which the unrestricted claim fails. -/
theorem canonical_stability (t : String) (v : Value) (hwf : wfCanon v = true)
    (ht : t = toDeterministicYaml v) :
    toDeterministicYaml ((parseRestrictedYaml t).getD Value.vnull) = t := by
  subst ht
  rw [parse_toDeterministicYaml v hwf]
  rfl

theorem canonical_stability_witness :
    ("a: 1\nb:\n  - true\n"
        = toDeterministicYaml (Value.vmap [("a", Value.vint 1),
            ("b", Value.vseq [Value.vbool true])])
      ∧ wfCanon (Value.vmap [("a", Value.vint 1),
            ("b", Value.vseq [Value.vbool true])]) = true)
    ∧ toDeterministicYaml ((parseRestrictedYaml "a: 1\nb:\n  - true\n").getD Value.vnull)
        = "a: 1\nb:\n  - true\n" :=
  ⟨⟨rfl, by decide⟩,
    canonical_stability "a: 1\nb:\n  - true\n"
      (Value.vmap [("a", Value.vint 1), ("b", Value.vseq [Value.vbool true])])
      (by decide) rfl⟩

theorem string_data_inj {a b : String} (h : a.data = b.data) : a = b := by
  have h2 := congrArg String.mk h
  rwa [strMkData, strMkData] at h2

theorem canonEntries_keys (entries : List (String × Value)) :
    (canonEntries entries).map Prod.fst = entries.map Prod.fst := by
  induction entries with
  | nil => rfl
  | cons p rest ih =>
    obtain ⟨k, v⟩ := p
    show k :: (canonEntries rest).map Prod.fst = k :: rest.map Prod.fst
    rw [ih]

theorem canonEntries_mem {k : String} {v : Value} {entries : List (String × Value)}
    (h : (k, v) ∈ entries) : (k, canonValue v) ∈ canonEntries entries := by
  induction entries with
  | nil => cases h
  | cons p rest ih =>
    obtain ⟨k2, v2⟩ := p
    rcases List.mem_cons.mp h with he | hm
    · injection he with h1 h2
      subst h1
      subst h2
      exact List.mem_cons_self _ _
    · exact List.mem_cons_of_mem _ (ih hm)

theorem filter_human_single : ∀ (entries : List (String × Value)) (hv : Value),
    ("$human$", hv) ∈ entries → (entries.map Prod.fst).Nodup →
    entries.filter (fun p => p.1 == "$human$") = [("$human$", hv)]
  | [], hv => by
    intro h
    cases h
  | (k2, v2) :: rest, hv => by
    intro hmem hnd
    rw [List.map_cons, List.nodup_cons] at hnd
    obtain ⟨hknotin, hndrest⟩ := hnd
    rcases List.mem_cons.mp hmem with he | hm
    · injection he with h1 h2
      subst h1
      subst h2
      have hrest : rest.filter (fun p => p.1 == "$human$") = [] := by
        rw [List.filter_eq_nil_iff]
        intro p hp
        simp only [beq_iff_eq]
        intro he2
        exact hknotin (List.mem_map.mpr ⟨p, hp, he2⟩)
      rw [List.filter_cons_of_pos (by simp), hrest]
    · have hk2 : (k2 == "$human$") = false := by
        rw [beq_eq_false_iff_ne]
        intro he2
        subst he2
        exact hknotin (List.mem_map.mpr ⟨("$human$", hv), hm, rfl⟩)
      rw [List.filter_cons_of_neg (by simp [hk2]),
        filter_human_single rest hv hm hndrest]

/-- C3: the serializer (key ordering applied by the canonicalisation
stage, entries then emitted in stored order) puts the reserved
annotation key first at its mapping level: the canonical tree lists
the reserved entry first, the emitted lines open with that entry's
lines, and every other key of the level follows in strictly ascending
code-point order, none of them the reserved key. -/
theorem reserved_key_emitted_first (entries : List (String × Value)) (hv : Value)
    (hmem : ("$human$", hv) ∈ entries)
    (hnd : (entries.map Prod.fst).Nodup) :
    ∃ rest, canonValue (Value.vmap entries)
        = Value.vmap (("$human$", canonValue hv) :: rest)
      ∧ serLines (canonValue (Value.vmap entries)) 0
          = pairLines "$human$" (canonValue hv) 0 ++ serMapLines rest 0
      ∧ List.Pairwise (fun p q : String × Value => p.1.data < q.1.data) rest
      ∧ ∀ p ∈ rest, p.1 ≠ "$human$" := by
  have hmem2 : ("$human$", canonValue hv) ∈ canonEntries entries := canonEntries_mem hmem
  have hnd2 : ((canonEntries entries).map Prod.fst).Nodup := by
    rw [canonEntries_keys]
    exact hnd
  have h1 := filter_human_single (canonEntries entries) (canonValue hv) hmem2 hnd2
  have hkeys : orderKeys (canonEntries entries)
      = ("$human$", canonValue hv)
        :: List.insertionSort (fun a b => a.1.data ≤ b.1.data)
             ((canonEntries entries).filter (fun p => !(p.1 == "$human$"))) := by
    rw [orderKeys, h1]
    rfl
  refine ⟨List.insertionSort (fun a b => a.1.data ≤ b.1.data)
      ((canonEntries entries).filter (fun p => !(p.1 == "$human$"))), ?_, ?_, ?_, ?_⟩
  · show Value.vmap (orderKeys (canonEntries entries)) = _
    rw [hkeys]
  · show serMapLines (orderKeys (canonEntries entries)) 0 = _
    rw [hkeys]
    rfl
  · have hsorted : List.Sorted (fun a b : String × Value => a.1.data ≤ b.1.data)
        (List.insertionSort (fun a b => a.1.data ≤ b.1.data)
          ((canonEntries entries).filter (fun p => !(p.1 == "$human$")))) :=
      List.sorted_insertionSort _ _
    have hperm := List.perm_insertionSort (fun a b : String × Value => a.1.data ≤ b.1.data)
        ((canonEntries entries).filter (fun p => !(p.1 == "$human$")))
    have hndf : (((canonEntries entries).filter
        (fun p => !(p.1 == "$human$"))).map Prod.fst).Nodup :=
      (List.Sublist.map Prod.fst (List.filter_sublist (canonEntries entries))).nodup hnd2
    have hnds : ((List.insertionSort (fun a b => a.1.data ≤ b.1.data)
        ((canonEntries entries).filter (fun p => !(p.1 == "$human$")))).map
          Prod.fst).Nodup :=
      ((hperm.map Prod.fst).nodup_iff).mpr hndf
    have hpne : List.Pairwise (fun p q : String × Value => p.1 ≠ q.1)
        (List.insertionSort (fun a b => a.1.data ≤ b.1.data)
          ((canonEntries entries).filter (fun p => !(p.1 == "$human$")))) := by
      rw [List.Nodup, List.pairwise_map] at hnds
      exact hnds
    exact (hsorted.and hpne).imp
      (fun hab => lt_of_le_of_ne hab.1 (fun hdeq => hab.2 (string_data_inj hdeq)))
  · intro p hp
    have hpf := (List.perm_insertionSort (fun a b : String × Value => a.1.data ≤ b.1.data)
        ((canonEntries entries).filter (fun p => !(p.1 == "$human$")))).mem_iff.mp hp
    have h2 := (List.mem_filter.mp hpf).2
    simp only [Bool.not_eq_true', beq_eq_false_iff_ne] at h2
    exact h2

theorem reserved_key_emitted_first_witness :
    (("$human$", Value.vstr "note")
        ∈ [("b", Value.vint 2), ("$human$", Value.vstr "note"), ("a", Value.vint 1)]
      ∧ ([("b", Value.vint 2), ("$human$", Value.vstr "note"),
          ("a", Value.vint 1)].map Prod.fst).Nodup)
    ∧ ∃ rest, canonValue (Value.vmap [("b", Value.vint 2),
          ("$human$", Value.vstr "note"), ("a", Value.vint 1)])
        = Value.vmap (("$human$", canonValue (Value.vstr "note")) :: rest)
      ∧ serLines (canonValue (Value.vmap [("b", Value.vint 2),
            ("$human$", Value.vstr "note"), ("a", Value.vint 1)])) 0
          = pairLines "$human$" (canonValue (Value.vstr "note")) 0 ++ serMapLines rest 0
      ∧ List.Pairwise (fun p q : String × Value => p.1.data < q.1.data) rest
      ∧ ∀ p ∈ rest, p.1 ≠ "$human$" :=
  ⟨⟨List.mem_cons_of_mem _ (List.mem_cons_self _ _), by decide⟩,
    reserved_key_emitted_first _ _
      (List.mem_cons_of_mem _ (List.mem_cons_self _ _)) (by decide)⟩
